import Mathlib

/-
Verification of the sosistab listener (replay filter, session table) and the
per-connection inflight engine (segment ring, retransmission scheduling, RTT
and rate estimation), shallowly embedded from
  src/lib/sosistab/src/listener.rs
  src/lib/sosistab/src/mux/relconn/inflight.rs

Modelling conventions, used uniformly below:
- `Instant` is a `Nat` counting nanoseconds; `Duration` arithmetic is `Nat`
  arithmetic in nanoseconds.  `saturating_duration_since` is truncated `Nat`
  subtraction, `as_secs` is division by 10^9, `as_millis` by 10^6.
  Every call of `Instant::now()` inside one operation of the source is
  modelled as a single explicit parameter `now` of that operation.
- Machine integers (`u64`, `usize`, `u8`) are `Nat`; the decrement of
  `inflight_count` uses truncated subtraction (the source would panic in
  debug builds on underflow, and no theorem below exercises that case).
- `f64` rate values are modelled as `Rat`; the source only assigns and
  compares rates, so the embedding is faithful for all finite non-NaN values.
- Rust `HashMap`s become association lists (`alLookup`/`alInsert`/`alRemove`),
  `IndexMap` (which replaces values in place, preserving insertion order)
  becomes `ilInsert`, bloom filters become ideal sets (`List` membership,
  matching the spec reading "modulo the 1% bloom false-positive rate"),
  `VecDeque` becomes a `List` with the front at the head, the
  `PriorityQueue<Seqno, Reverse<Instant>>` becomes an association list from
  seqno to deadline (its `push` updates the priority of an existing key),
  and `BTreeSet<Seqno>` becomes a `List Nat` read through `minimum?`.
- Byte strings (`Bytes`, `&[u8]`, `SocketAddr`) are abstracted to `Nat`
  identifiers; only equality of such values is ever used by the code below.
-/

/-! ## Association-list helpers (model of HashMap and IndexMap) -/

/-- Lookup in an association list; model of `HashMap::get`. -/
def alLookup : List (Nat × α) → Nat → Option α
  | [], _ => none
  | (k', v) :: rest, k => if k' = k then some v else alLookup rest k

/-- Removal from an association list; model of `HashMap::remove`
(extensionally: all bindings of the key disappear). -/
def alRemove (l : List (Nat × α)) (k : Nat) : List (Nat × α) :=
  l.filter (fun p => p.1 ≠ k)

/-- Insert-or-replace; model of `HashMap::insert` (extensional behaviour:
the key now maps to the value, all other keys are unchanged). -/
def alInsert (l : List (Nat × α)) (k : Nat) (v : α) : List (Nat × α) :=
  (k, v) :: alRemove l k

/-- In-place insert-or-replace returning the previous value; model of
`IndexMap::insert`, which overwrites the first occurrence of the key in
place (keeping insertion order) or appends a fresh binding. -/
def ilInsert : List (Nat × α) → Nat → α → Option α × List (Nat × α)
  | [], k, v => (none, [(k, v)])
  | (k', v') :: rest, k, v =>
    if k' = k then (some v', (k, v) :: rest)
    else
      let r := ilInsert rest k v
      (r.1, (k', v') :: r.2)

/-! ## RecentFilter (listener.rs lines 61-88)

The two bloom filters are modelled as ideal sets (`List Nat` membership):
this is exactly the claim's reading "modulo the 1% bloom false-positive
rate".  `check_and_set` reports prior membership and inserts. -/

structure RecentFilter where
  curr_bloom : List Nat
  last_bloom : List Nat
  curr_time : Nat
deriving DecidableEq

namespace RecentFilter

/-- Model of `RecentFilter::new` at creation instant `now`. -/
def new (now : Nat) : RecentFilter := ⟨[], [], now⟩

/-- Model of `RecentFilter::check`.  Mirrors the source exactly: when more
than 600 seconds have elapsed since `curr_time`, the blooms are swapped and
the (new) current bloom cleared — and, as in the source, `curr_time` is NOT
refreshed.  Then the result is `!(curr.check_and_set val || last.check val)`. -/
def check (rf : RecentFilter) (now : Nat) (val : Nat) : Bool × RecentFilter :=
  let rf :=
    if (now - rf.curr_time) / 1000000000 > 600 then
      { curr_bloom := [], last_bloom := rf.curr_bloom, curr_time := rf.curr_time }
    else rf
  let present := rf.curr_bloom.elem val
  let res := !(present || rf.last_bloom.elem val)
  (res, { rf with curr_bloom := if present then rf.curr_bloom else val :: rf.curr_bloom })

end RecentFilter

/-! ## SessionTable (listener.rs lines 343-398)

`SessEntry` models the tuple `(Sender<DataFrame>, StdAEAD, Arc<RwLock<ShardedAddrs>>)`;
the ingress channel and the up-AEAD are opaque `Nat` identifiers, and the
shared `ShardedAddrs` is modelled by value (in the listener every session
owns a distinct `Arc`, and the table is its only writer).  `rebind` writes
through the lock into the entry's `ShardedAddrs`; the value model performs
the extensionally identical re-insertion of the updated entry. -/

structure SessEntry where
  sender : Nat
  aead : Nat
  addrs : List (Nat × Nat)
deriving DecidableEq

structure SessionTable where
  token_to_sess : List (Nat × SessEntry)
  addr_to_token : List (Nat × Nat)
deriving DecidableEq

namespace SessionTable

/-- Model of `SessionTable::default()`. -/
def empty : SessionTable := ⟨[], []⟩

/-- Model of `SessionTable::rebind`: if the token is known, insert
`shard_id → addr` into the session's ShardedAddrs, remove any evicted old
address from the reverse index, insert `addr → token`, and return true;
otherwise return false. -/
def rebind (st : SessionTable) (addr shard_id token : Nat) :
    Bool × SessionTable :=
  match alLookup st.token_to_sess token with
  | some entry =>
    (true,
     ⟨alInsert st.token_to_sess token
        { entry with addrs := (ilInsert entry.addrs shard_id addr).2 },
      alInsert
        (match (ilInsert entry.addrs shard_id addr).1 with
         | some old => alRemove st.addr_to_token old
         | none => st.addr_to_token) addr token⟩)
  | none => (false, st)

/-- Model of `SessionTable::delete`: remove the session and purge every
reverse-index entry whose address appears in its ShardedAddrs. -/
def delete (st : SessionTable) (token : Nat) : SessionTable :=
  match alLookup st.token_to_sess token with
  | some entry =>
    ⟨alRemove st.token_to_sess token,
     (entry.addrs.map Prod.snd).foldl alRemove st.addr_to_token⟩
  | none => st

/-- Model of `SessionTable::lookup`: reverse O(1) lookup returning the
ingress channel and the up-AEAD. -/
def lookup (st : SessionTable) (addr : Nat) : Option (Nat × Nat) :=
  match alLookup st.addr_to_token addr with
  | some token =>
    match alLookup st.token_to_sess token with
    | some e => some (e.sender, e.aead)
    | none => none
  | none => none

/-- Model of `SessionTable::new_sess`: register the session under the token. -/
def new_sess (st : SessionTable) (token sender aead : Nat)
    (locked_addrs : List (Nat × Nat)) : SessionTable :=
  { st with
    token_to_sess := alInsert st.token_to_sess token ⟨sender, aead, locked_addrs⟩ }

end SessionTable

/-- One public operation on the session table, for quantifying over
operation sequences. -/
inductive TableOp where
  | new_sess (token sender aead : Nat) (addrs : List (Nat × Nat))
  | rebind (addr shard_id token : Nat)
  | delete (token : Nat)
deriving DecidableEq

def applyTableOp (st : SessionTable) : TableOp → SessionTable
  | .new_sess t s a ad => st.new_sess t s a ad
  | .rebind addr sh t => (st.rebind addr sh t).2
  | .delete t => st.delete t

/-- Run a sequence of operations from the empty table. -/
def runTableOps (ops : List TableOp) : SessionTable :=
  ops.foldl applyTableOp SessionTable.empty

/-- The claimed session-table invariant: every reverse-map entry `a ↦ t` has
`t` in the forward map, with `a` among that session's sharded addresses. -/
def tableInvariant (st : SessionTable) : Prop :=
  ∀ p ∈ st.addr_to_token,
    ∃ e, alLookup st.token_to_sess p.2 = some e ∧ p.1 ∈ e.addrs.map Prod.snd

/-- Discipline under which the invariant holds: `new_sess` is only called
with a token not currently registered (exactly how the listener actor calls
it: only after `rebind` on that token returned false). -/
def FreshTableOps : SessionTable → List TableOp → Bool
  | _, [] => true
  | st, .new_sess t s a ad :: rest =>
    (alLookup st.token_to_sess t).isNone && FreshTableOps (st.new_sess t s a ad) rest
  | st, .rebind addr sh t :: rest => FreshTableOps (st.rebind addr sh t).2 rest
  | st, .delete t :: rest => FreshTableOps (st.delete t) rest

/-! ## Inflight engine (mux/relconn/inflight.rs)

Time is in nanoseconds.  `RttCalculator` keeps its fields in milliseconds
(u64), as in the source; `rto()` converts to a `Duration` via
`Duration::from_millis`, i.e. multiplication by 10^6. -/

/-- Modelled from the spec: the payload type `Message` is defined in
mux/structs.rs, which is not among the sources at hand.  The inflight
engine only discriminates whether a payload is a reliable data message
(the `Message::Rel { .. }` pattern); everything else about the payload is
irrelevant to it, so the model keeps just that one bit. -/
inductive Message where
  | Rel
  | Urel
deriving DecidableEq

structure InflightEntry where
  seqno : Nat
  acked : Bool
  send_time : Nat
  retrans : Nat
  payload : Message
  delivered : Nat
  delivered_time : Nat
deriving DecidableEq

/-- Model of the free function `diff` (inflight.rs lines 279-285). -/
def diff (a b : Nat) : Nat := if b > a then b - a else a - b

structure RttCalculator where
  srtt : Nat
  rttvar : Nat
  rto : Nat
  min_rtt : Nat
  rtt_update_time : Nat
  existing : Bool
deriving DecidableEq

namespace RttCalculator

/-- Model of `RttCalculator::default()` at instant `now`. -/
def init (now : Nat) : RttCalculator := ⟨300, 0, 300, 300, now, false⟩

/-- Model of `RttCalculator::record_sample`.  The sample is an optional
`Duration` in nanoseconds, converted to milliseconds inside
(`as_millis() as u64`).  The source never assigns `existing`, so the
first-sample branch runs on every sample; the embedding mirrors that.
The min-RTT refresh block runs even when the sample is `None`. -/
def record_sample (r : RttCalculator) (now : Nat) (sample : Option Nat) :
    RttCalculator :=
  let r :=
    match sample with
    | some sample_ns =>
      let sample := sample_ns / 1000000
      let r :=
        if !r.existing then { r with srtt := sample, rttvar := sample / 2 }
        else { r with rttvar := r.rttvar * 3 / 4 + diff r.srtt sample / 4,
                      srtt := r.srtt * 7 / 8 + sample / 8 }
      { r with rto := max sample (r.srtt + max (4 * r.rttvar) 10) + 50 }
    | none => r
  if r.srtt < r.min_rtt ∨ (now - r.rtt_update_time) / 1000000 > 10000 then
    { r with min_rtt := r.srtt, rtt_update_time := now }
  else r

/-- Model of `RttCalculator::rto()`, a `Duration` in nanoseconds. -/
def rto_ns (r : RttCalculator) : Nat := r.rto * 1000000

end RttCalculator

structure RateCalculator where
  rate : Rat
  rate_update_time : Nat
deriving DecidableEq

namespace RateCalculator

/-- Model of `RateCalculator::default()` at instant `now`: rate 100. -/
def init (now : Nat) : RateCalculator := ⟨100, now⟩

/-- Model of `RateCalculator::record_sample`: assign the sample when more
than 3 whole seconds have elapsed since `rate_update_time` or the sample
exceeds the current rate; the update also refreshes `rate_update_time`. -/
def record_sample (rc : RateCalculator) (now : Nat) (sample : Rat) :
    RateCalculator :=
  if (now - rc.rate_update_time) / 1000000000 > 3 ∨ sample > rc.rate then
    ⟨sample, now⟩
  else rc

end RateCalculator

structure Inflight where
  segments : List InflightEntry
  inflight_count : Nat
  times : List (Nat × Nat)
  fast_retrans : List Nat
  rtt : RttCalculator
  rate : RateCalculator
  delivered : Nat
  delivered_time : Nat
deriving DecidableEq

namespace Inflight

/-- Model of `Inflight::new()` at instant `now`. -/
def new (now : Nat) : Inflight :=
  ⟨[], 0, [], [], RttCalculator.init now, RateCalculator.init now, 0, now⟩

/-- Model of `Inflight::get_seqno` (read-only part): index the segment
ring at offset `seqno - front.seqno`. -/
def get_seqno (st : Inflight) (seqno : Nat) : Option InflightEntry :=
  match st.segments.head? with
  | some first_entry =>
    if seqno ≥ first_entry.seqno then st.segments[(seqno - first_entry.seqno)]?
    else none
  | none => none

/-- Inner part of `Inflight::mark_acked` (lines 97-122): locate the entry
at the given offset, and if it is not yet acked, mark it, decrement
`inflight_count`, bump `delivered`/`delivered_time`, record a rate sample
(only for first-transmission reliable messages) and an RTT sample (only
for first transmissions — Karn's algorithm). -/
def mark_acked_inner (st : Inflight) (now offset : Nat) : Bool × Inflight :=
  match st.segments[offset]? with
  | some seg =>
    if !seg.acked then
      let delivered' := st.delivered + 1
      let delivered_time' := now
      -- rate sample only for first-transmission reliable payloads; the
      -- conditional assignment of `self.rate` is written as one field value
      let rate' : RateCalculator :=
        if seg.retrans = 0 then
          match seg.payload with
          | .Rel =>
            let data_acked := delivered' - seg.delivered
            let ack_elapsed := delivered_time' - seg.delivered_time
            let rate_sample : Rat :=
              (data_acked : Rat) / ((ack_elapsed : Rat) / 1000000000)
            st.rate.record_sample now rate_sample
          | .Urel => st.rate
        else st.rate
      (true,
       { st with
         delivered := delivered',
         delivered_time := delivered_time',
         segments := st.segments.set offset { seg with acked := true },
         inflight_count := st.inflight_count - 1,
         rate := rate',
         rtt := st.rtt.record_sample now
           (if seg.retrans = 0 then some (now - seg.send_time) else none) })
    else (false, st)
  | none => (false, st)

/-- Model of `Inflight::mark_acked` (lines 89-130).  When the seqno is at
or beyond the front, run the inner step at offset `seqno - front.seqno`
and then pop acked entries off the front. -/
def mark_acked (st : Inflight) (now seqno : Nat) : Bool × Inflight :=
  match st.segments.head? with
  | some entry =>
    if seqno ≥ entry.seqno then
      let r := st.mark_acked_inner now (seqno - entry.seqno)
      (r.1, { r.2 with segments := r.2.segments.dropWhile (fun e => e.acked) })
    else (false, st)
  | none => (false, st)

/-- Model of `Inflight::mark_acked_lt` (lines 79-87): iterate the snapshot
of current seqnos in queue order and `mark_acked` each one strictly below
`seqno`; the `else break` stops at the first seqno not below it, which is
exactly `takeWhile`. -/
def mark_acked_lt (st : Inflight) (now seqno : Nat) : Inflight :=
  ((st.segments.map (fun v => v.seqno)).takeWhile (fun s => s < seqno)).foldl
    (fun acc s => (acc.mark_acked now s).2) st

/-- Model of `Inflight::insert` (lines 132-147): append a fresh entry at
the back when the seqno is not already present, then (re)schedule the
seqno's retransmission deadline at `now + rto`. -/
def insert (st : Inflight) (now seqno : Nat) (msg : Message) : Inflight :=
  let rto := st.rtt.rto_ns
  let st1 :=
    if (st.get_seqno seqno).isNone then
      { st with
        segments := st.segments ++
          [⟨seqno, false, now, 0, msg, st.delivered, st.delivered_time⟩],
        inflight_count := st.inflight_count + 1 }
    else st
  { st1 with times := alInsert st1.times seqno (now + rto) }

/-- Model of the fast-retransmit branch of `Inflight::wait_first` (lines
161-165): when `fast_retrans` is non-empty, remove its smallest seqno and
return `(seq, false)`, leaving everything else (the timer queue included)
untouched; otherwise this branch does not fire. -/
def wait_first_fast (st : Inflight) : Option ((Nat × Bool) × Inflight) :=
  match st.fast_retrans.min? with
  | some seq =>
    some ((seq, false), { st with fast_retrans := st.fast_retrans.erase seq })
  | none => none

/-- Model of `for _ in 0..rtx { rto *= 3; rto /= 2 }` (lines 179-182):
iterated multiply-by-3-then-divide-by-2 on a `Duration` of whole
nanoseconds (Rust `Duration` division truncates at nanosecond precision). -/
def iter_rto (rto : Nat) : Nat → Nat
  | 0 => rto
  | n + 1 => iter_rto rto n * 3 / 2

/-- Model of one iteration of the timer arm of `Inflight::wait_first`
(lines 166-187), for the entry `seqno` just popped from `times` after its
deadline fired, `now` being the instant after the timer sleep: if the
segment still exists and is unacked, increment its retrans counter,
scale the estimator's current RTO by `(3/2)` once per accumulated
retransmission, reschedule at `now + rto'`, and return `(seqno, true)`;
otherwise the loop would continue (`none`). -/
def wait_first_timeout_arm (st : Inflight) (now seqno : Nat) :
    Option (Nat × Bool) × Inflight :=
  let st0 : Inflight := { st with times := alRemove st.times seqno }
  let rto := st0.rtt.rto_ns
  match st0.segments.head? with
  | some first =>
    if seqno ≥ first.seqno then
      match st0.segments[(seqno - first.seqno)]? with
      | some seg =>
        if !seg.acked then
          let retrans' := seg.retrans + 1
          (some (seqno, true),
           { st0 with
             segments := st0.segments.set (seqno - first.seqno)
               { seg with retrans := retrans' },
             times := alInsert st0.times seqno (now + iter_rto rto retrans') })
        else (none, st0)
      | none => (none, st0)
    else (none, st0)
  | none => (none, st0)

/-- The (seqno, acked) projection of the segment ring; the control flow of
`mark_acked` and `get_seqno` depends on the ring only through it. -/
def projSA (st : Inflight) : List (Nat × Bool) :=
  st.segments.map (fun e => (e.seqno, e.acked))

end Inflight


/-- Second definition for the amended claim C8, written from the amended
claim's words rather than from the code: the pair (rate, time of last
assignment) is updated to the sample exactly when the sample exceeds the
current rate or more than 3 truncated seconds have elapsed since the last
assignment (whether or not that assignment changed the value). -/
def rateSpecStep (p : Rat × Nat) (t : Nat) (s : Rat) : Rat × Nat :=
  if s > p.1 ∨ (t - p.2) / 1000000000 > 3 then (s, t) else p

/-- Run the amended C8 rule over timestamped samples from rate 100. -/
def rateSpecRun (t0 : Nat) (samples : List (Nat × Rat)) : Rat × Nat :=
  samples.foldl (fun p q => rateSpecStep p q.1 q.2) (100, t0)

/-- One insert-or-ack operation on an `Inflight`, carrying its timestamp. -/
inductive AOp where
  | ins (now seqno : Nat) (msg : Message)
  | ack (now seqno : Nat)
deriving DecidableEq

def applyAOp (st : Inflight) : AOp → Inflight
  | .ins now seqno msg => st.insert now seqno msg
  | .ack now seqno => (st.mark_acked now seqno).2

def runAOps (st : Inflight) (ops : List AOp) : Inflight :=
  ops.foldl applyAOp st

/-- Number of insert operations in a sequence (the size of the claim's S). -/
def insCount : List AOp → Nat
  | [] => 0
  | .ins _ _ _ :: rest => insCount rest + 1
  | .ack _ _ :: rest => insCount rest

/-- The acked seqnos of a sequence, in operation order (the claim's A). -/
def ackList : List AOp → List Nat
  | [] => []
  | .ins _ _ _ :: rest => ackList rest
  | .ack _ s :: rest => s :: ackList rest

/-- Claim C4's notion of admissible interleaving, starting after `i`
inserts with acked-list `A`: inserts are contiguous ascending from `s0`,
and each ack targets an already-inserted seqno not previously acked. -/
def WfAOps (s0 : Nat) : Nat → List Nat → List AOp → Bool
  | _, _, [] => true
  | i, A, .ins _ s _ :: rest => (s == s0 + i) && WfAOps s0 (i + 1) A rest
  | i, A, .ack _ j :: rest =>
    decide (s0 ≤ j) && decide (j < s0 + i) && !(A.elem j) &&
      WfAOps s0 i (j :: A) rest

/-- The seqnos of [s0, s0+i) not in the acked list A, in ascending order. -/
def unackedL (s0 i : Nat) (A : List Nat) : List Nat :=
  (List.range' s0 i).filter (fun j => !(A.elem j))

/-- The canonical (seqno, acked) projection of a queue built by `i`
contiguous inserts from `s0` with acked-list `A`: flags over the range,
with the fully-acked front prefix pruned. -/
def canonSegs (s0 i : Nat) (A : List Nat) : List (Nat × Bool) :=
  ((List.range' s0 i).map (fun j => (j, A.elem j))).dropWhile (fun p => p.2)

/-- The acked-list accumulator actually threaded through a run (newest
first), matching the accumulation in `WfAOps`. -/
def ackAccum : List AOp → List Nat → List Nat
  | [], A => A
  | .ins _ _ _ :: rest, A => ackAccum rest A
  | .ack _ j :: rest, A => ackAccum rest (j :: A)

/-- The run invariant for claim C4: after `i` contiguous inserts from `s0`
with acked-list `A`, the (seqno, acked) projection of the segment ring is
the canonical pruned flag list, and `inflight_count` counts the unacked
seqnos. -/
def InvA (s0 i : Nat) (A : List Nat) (st : Inflight) : Prop :=
  st.projSA = canonSegs s0 i A ∧
  st.inflight_count = (unackedL s0 i A).length

/-! ## Theorems -/

theorem alLookup_alInsert_self (l : List (Nat × α)) (k : Nat) (v : α) :
    alLookup (alInsert l k v) k = some v := by
  simp [alInsert, alLookup]

theorem alLookup_filter (l : List (Nat × α)) (p : Nat × α → Bool) (k : Nat)
    (h : ∀ v, p (k, v) = true) :
    alLookup (l.filter p) k = alLookup l k := by
  induction l with
  | nil => rfl
  | cons hd tl ih =>
    obtain ⟨k', v'⟩ := hd
    by_cases hk : k' = k
    · subst hk
      rw [List.filter_cons, if_pos (h v')]
      simp [alLookup]
    · rw [List.filter_cons]
      cases hp : p (k', v') with
      | true =>
        rw [if_pos rfl]
        simp only [alLookup, if_neg hk]
        exact ih
      | false =>
        rw [if_neg (by simp)]
        rw [show alLookup ((k', v') :: tl) k = alLookup tl k by
          simp [alLookup, if_neg hk]]
        exact ih

theorem alLookup_alInsert_ne (l : List (Nat × α)) (k k' : Nat) (v : α)
    (h : k' ≠ k) : alLookup (alInsert l k v) k' = alLookup l k' := by
  unfold alInsert
  rw [alLookup, if_neg (fun hh => h hh.symm)]
  exact alLookup_filter l _ k' (by intro v'; simp [alRemove]; omega)

theorem alLookup_alRemove_self (l : List (Nat × α)) (k : Nat) :
    alLookup (alRemove l k) k = none := by
  induction l with
  | nil => rfl
  | cons hd tl ih =>
    obtain ⟨a, b⟩ := hd
    unfold alRemove at ih ⊢
    rw [List.filter_cons]
    by_cases hk : a = k
    · rw [if_neg (by simp [hk])]
      exact ih
    · rw [if_pos (by simp [hk])]
      simp only [alLookup, if_neg hk]
      exact ih

theorem alLookup_alRemove (l : List (Nat × α)) (k k' : Nat) :
    alLookup (alRemove l k) k' = if k' = k then none else alLookup l k' := by
  by_cases h : k' = k
  · subst h
    rw [if_pos rfl]
    exact alLookup_alRemove_self l k'
  · rw [if_neg h]
    exact alLookup_filter l _ k' (by intro v'; simp [alRemove]; omega)

theorem mem_alRemove {l : List (Nat × α)} {k : Nat} {p : Nat × α} :
    p ∈ alRemove l k ↔ p ∈ l ∧ p.1 ≠ k := by
  simp [alRemove, List.mem_filter]

theorem mem_alInsert {l : List (Nat × α)} {k : Nat} {v : α} {p : Nat × α} :
    p ∈ alInsert l k v ↔ p = (k, v) ∨ (p ∈ l ∧ p.1 ≠ k) := by
  simp [alInsert, mem_alRemove]

/-- Membership in the value list survives an in-place insert unless the value
was exactly the one overwritten (returned as the first component). -/
theorem mem_values_ilInsert {l : List (Nat × α)} {k : Nat} {v b : α}
    (hb : b ∈ l.map Prod.snd) :
    b ∈ (ilInsert l k v).2.map Prod.snd ∨ (ilInsert l k v).1 = some b := by
  induction l with
  | nil => simp at hb
  | cons hd tl ih =>
    obtain ⟨k', v'⟩ := hd
    simp only [List.map_cons, List.mem_cons] at hb
    by_cases hk : k' = k
    · subst hk
      rcases hb with h | h
      · right
        rw [ilInsert, if_pos rfl]
        exact congrArg some h.symm
      · left
        rw [ilInsert, if_pos rfl]
        simp only [List.map_cons, List.mem_cons]
        exact Or.inr h
    · rcases hb with h | h
      · left
        rw [ilInsert, if_neg hk]
        simp only [List.map_cons, List.mem_cons]
        exact Or.inl h
      · rcases ih h with h2 | h2
        · left
          rw [ilInsert, if_neg hk]
          simp only [List.map_cons, List.mem_cons]
          exact Or.inr h2
        · right
          rw [ilInsert, if_neg hk]
          exact h2

/-- The newly inserted value is in the value list after an in-place insert. -/
theorem self_mem_values_ilInsert (l : List (Nat × α)) (k : Nat) (v : α) :
    v ∈ (ilInsert l k v).2.map Prod.snd := by
  induction l with
  | nil => simp [ilInsert]
  | cons hd tl ih =>
    obtain ⟨k', v'⟩ := hd
    by_cases hk : k' = k
    · subst hk
      rw [ilInsert, if_pos rfl]
      simp
    · rw [ilInsert, if_neg hk]
      simp only [List.map_cons, List.mem_cons]
      exact Or.inr ih

/-- Computation rule for a successful `rebind` on a known token. -/
theorem SessionTable.rebind_known (st : SessionTable) (addr sh t : Nat)
    (e : SessEntry) (he : alLookup st.token_to_sess t = some e) :
    st.rebind addr sh t =
      (true,
       ⟨alInsert st.token_to_sess t { e with addrs := (ilInsert e.addrs sh addr).2 },
        alInsert
          (match (ilInsert e.addrs sh addr).1 with
           | some old => alRemove st.addr_to_token old
           | none => st.addr_to_token) addr t⟩) := by
  unfold SessionTable.rebind
  rw [he]

theorem tableInvariant_rebind (st : SessionTable) (addr sh t : Nat)
    (h : tableInvariant st) : tableInvariant (st.rebind addr sh t).2 := by
  cases hl : alLookup st.token_to_sess t with
  | none =>
    have : st.rebind addr sh t = (false, st) := by
      unfold SessionTable.rebind
      rw [hl]
    rw [this]
    exact h
  | some entry =>
    rw [SessionTable.rebind_known st addr sh t entry hl]
    intro p hp
    simp only at hp
    rcases mem_alInsert.mp hp with hpe | ⟨hpm, hpa⟩
    · subst hpe
      refine ⟨{ entry with addrs := (ilInsert entry.addrs sh addr).2 },
        alLookup_alInsert_self _ _ _, ?_⟩
      exact self_mem_values_ilInsert entry.addrs sh addr
    · -- p survived in the reverse map
      have hporig : p ∈ st.addr_to_token ∧
          (∀ old, (ilInsert entry.addrs sh addr).1 = some old → p.1 ≠ old) := by
        revert hpm
        cases ho : (ilInsert entry.addrs sh addr).1 with
        | none => exact fun hpm => ⟨hpm, by simp⟩
        | some old =>
          intro hpm
          rcases mem_alRemove.mp hpm with ⟨h1, h2⟩
          refine ⟨h1, fun o ho2 => ?_⟩
          injection ho2 with h3
          exact h3 ▸ h2
      obtain ⟨e, he, hm⟩ := h p hporig.1
      by_cases hpt : p.2 = t
      · rw [hpt] at he
        rw [hl] at he
        cases he
        rcases mem_values_ilInsert (k := sh) (v := addr) hm with h2 | h2
        · exact ⟨{ entry with addrs := (ilInsert entry.addrs sh addr).2 },
            by rw [hpt]; exact alLookup_alInsert_self _ _ _, h2⟩
        · exact absurd rfl (hporig.2 p.1 h2)
      · exact ⟨e, by rw [alLookup_alInsert_ne _ _ _ _ hpt]; exact he, hm⟩

theorem mem_foldl_alRemove {att : List (Nat × Nat)} {vals : List Nat}
    {p : Nat × Nat} :
    p ∈ vals.foldl alRemove att ↔ p ∈ att ∧ p.1 ∉ vals := by
  induction vals generalizing att with
  | nil => simp
  | cons v vs ih =>
    rw [List.foldl_cons, ih]
    constructor
    · rintro ⟨h1, h2⟩
      rcases mem_alRemove.mp h1 with ⟨h3, h4⟩
      refine ⟨h3, ?_⟩
      simp only [List.mem_cons, not_or]
      exact ⟨h4, h2⟩
    · rintro ⟨h1, h2⟩
      simp only [List.mem_cons, not_or] at h2
      exact ⟨mem_alRemove.mpr ⟨h1, h2.1⟩, h2.2⟩

theorem tableInvariant_delete (st : SessionTable) (t : Nat)
    (h : tableInvariant st) : tableInvariant (st.delete t) := by
  unfold SessionTable.delete
  cases hl : alLookup st.token_to_sess t with
  | none => exact h
  | some entry =>
    intro p hp
    simp only at hp
    rcases mem_foldl_alRemove.mp hp with ⟨h1, h2⟩
    obtain ⟨e, he, hm⟩ := h p h1
    by_cases hpt : p.2 = t
    · rw [hpt, hl] at he
      cases he
      exact absurd hm h2
    · refine ⟨e, ?_, hm⟩
      rw [alLookup_alRemove]
      rw [if_neg hpt]
      exact he

theorem tableInvariant_new_sess (st : SessionTable) (t s a : Nat)
    (ad : List (Nat × Nat)) (hfresh : alLookup st.token_to_sess t = none)
    (h : tableInvariant st) : tableInvariant (st.new_sess t s a ad) := by
  intro p hp
  obtain ⟨e, he, hm⟩ := h p hp
  have hpt : p.2 ≠ t := by
    intro hq
    rw [hq, hfresh] at he
    cases he
  exact ⟨e, by
    unfold SessionTable.new_sess
    simp only
    rw [alLookup_alInsert_ne _ _ _ _ hpt]
    exact he, hm⟩

theorem tableInvariant_run_aux :
    ∀ (ops : List TableOp) (st : SessionTable), tableInvariant st →
      FreshTableOps st ops = true → tableInvariant (ops.foldl applyTableOp st) := by
  intro ops
  induction ops with
  | nil => exact fun st h _ => h
  | cons op rest ih =>
    intro st h hf
    rw [List.foldl_cons]
    cases op with
    | new_sess t s a ad =>
      rw [FreshTableOps, Bool.and_eq_true] at hf
      refine ih _ ?_ hf.2
      have h1 : (alLookup st.token_to_sess t).isNone = true := hf.1
      refine tableInvariant_new_sess st t s a ad ?_ h
      cases hx : alLookup st.token_to_sess t with
      | none => rfl
      | some e => rw [hx] at h1; cases h1
    | rebind addr sh t =>
      rw [FreshTableOps] at hf
      exact ih _ (tableInvariant_rebind st addr sh t h) hf
    | delete t =>
      rw [FreshTableOps] at hf
      exact ih _ (tableInvariant_delete st t h) hf

/-- Claim C2 (counterexample): the invariant does NOT hold after every
sequence of `new_sess`, `rebind`, `delete` from the empty table.
`new_sess` is `HashMap::insert`, which overwrites an existing token: after
`new_sess 1 _ _ [(0, 5)]`, `rebind 5 0 1`, `new_sess 1 _ _ []`, the reverse
map still holds `5 ↦ 1` but token 1's ShardedAddrs is empty, so no shard
maps to address 5. -/
theorem sessionTable_invariant_counterexample :
    ¬ tableInvariant (runTableOps
      [.new_sess 1 10 20 [(0, 5)], .rebind 5 0 1, .new_sess 1 11 21 []]) := by
  intro h
  obtain ⟨e, he, hm⟩ := h (5, 1) (by decide)
  rw [show alLookup (runTableOps
      [.new_sess 1 10 20 [(0, 5)], .rebind 5 0 1, .new_sess 1 11 21 []]).token_to_sess 1
      = some ⟨11, 21, []⟩ from by decide] at he
  cases he
  simp at hm

/-- Claim C2 (amended): after any sequence of `new_sess`, `rebind`, and
`delete` from the empty SessionTable in which `new_sess` is only invoked
with tokens not currently registered (as the listener actor does — it calls
`new_sess` only after `rebind` on that token returned false), every reverse
map entry `a ↦ t` has `t` present in the forward map and that session's
ShardedAddrs contains `a` under some shard id. -/
theorem sessionTable_invariant (ops : List TableOp)
    (h : FreshTableOps SessionTable.empty ops = true) :
    tableInvariant (runTableOps ops) :=
  tableInvariant_run_aux ops SessionTable.empty (by intro p hp; cases hp) h

/-- Witness for C2's amended theorem on a concrete operation sequence
exercising registration, rebinds with eviction, a second session and a
deletion. -/
theorem sessionTable_invariant_witness :
    FreshTableOps SessionTable.empty
      [.new_sess 1 10 20 [(0, 5)], .rebind 5 0 1, .rebind 6 0 1,
       .new_sess 2 11 21 [(0, 7)], .rebind 7 0 2, .rebind 7 1 2, .delete 1]
      = true ∧
    tableInvariant (runTableOps
      [.new_sess 1 10 20 [(0, 5)], .rebind 5 0 1, .rebind 6 0 1,
       .new_sess 2 11 21 [(0, 7)], .rebind 7 0 2, .rebind 7 1 2, .delete 1]) :=
  ⟨by decide, sessionTable_invariant _ (by decide)⟩

theorem ilInsert_ilInsert_fst (l : List (Nat × Nat)) (k v v' : Nat) :
    (ilInsert (ilInsert l k v).2 k v').1 = some v := by
  induction l with
  | nil => simp [ilInsert]
  | cons hd tl ih =>
    obtain ⟨k', w⟩ := hd
    by_cases hk : k' = k
    · subst hk
      rw [ilInsert, if_pos rfl]
      simp only
      rw [ilInsert, if_pos rfl]
    · rw [ilInsert, if_neg hk]
      simp only
      rw [ilInsert, if_neg hk]
      exact ih

/-- Claim C3: rebind eviction.  For a registered token `t` and distinct
addresses, `rebind addr1 s t` then `rebind addr2 s t` both return true,
after which `lookup addr1` is none and `lookup addr2` returns the session's
ingress channel and up-AEAD; moreover `rebind` returns true exactly when the
token is known to the table. -/
theorem sessionTable_rebind_eviction (st : SessionTable)
    (t s addr1 addr2 : Nat) (e : SessEntry)
    (he : alLookup st.token_to_sess t = some e) (hne : addr1 ≠ addr2) :
    (st.rebind addr1 s t).1 = true ∧
    ((st.rebind addr1 s t).2.rebind addr2 s t).1 = true ∧
    ((st.rebind addr1 s t).2.rebind addr2 s t).2.lookup addr1 = none ∧
    ((st.rebind addr1 s t).2.rebind addr2 s t).2.lookup addr2
      = some (e.sender, e.aead) ∧
    (∀ (st2 : SessionTable) (a sh tk : Nat),
      (st2.rebind a sh tk).1 = true ↔ (alLookup st2.token_to_sess tk).isSome = true) := by
  have hstep1 := SessionTable.rebind_known st addr1 s t e he
  have hlook1 : alLookup (st.rebind addr1 s t).2.token_to_sess t
      = some { e with addrs := (ilInsert e.addrs s addr1).2 } := by
    rw [hstep1]
    exact alLookup_alInsert_self _ _ _
  have hstep2 := SessionTable.rebind_known (st.rebind addr1 s t).2 addr2 s t
    { e with addrs := (ilInsert e.addrs s addr1).2 } hlook1
  rw [show ({ e with addrs := (ilInsert e.addrs s addr1).2 } : SessEntry).addrs
      = (ilInsert e.addrs s addr1).2 from rfl,
    ilInsert_ilInsert_fst e.addrs s addr1 addr2] at hstep2
  refine ⟨by rw [hstep1], by rw [hstep2], ?_, ?_, ?_⟩
  · unfold SessionTable.lookup
    rw [hstep2]
    simp only
    rw [alLookup_alInsert_ne _ _ _ _ hne, alLookup_alRemove_self]
  · unfold SessionTable.lookup
    rw [hstep2]
    simp only
    rw [alLookup_alInsert_self]
    simp only
    rw [alLookup_alInsert_self]
  · intro st2 a sh tk
    unfold SessionTable.rebind
    cases hx : alLookup st2.token_to_sess tk with
    | none => simp
    | some ee => simp

/-- Witness for C3 on a concrete table holding one registered session. -/
theorem sessionTable_rebind_eviction_witness :
    alLookup (SessionTable.mk [(1, SessEntry.mk 10 20 [(0, 9)])] [(9, 1)]).token_to_sess 1
      = some (SessEntry.mk 10 20 [(0, 9)]) ∧
    (5 : Nat) ≠ 6 ∧
    ((SessionTable.mk [(1, SessEntry.mk 10 20 [(0, 9)])] [(9, 1)]).rebind 5 0 1).1 = true ∧
    (((SessionTable.mk [(1, SessEntry.mk 10 20 [(0, 9)])] [(9, 1)]).rebind 5 0 1).2.rebind 6 0 1).2.lookup 5
      = none := by
  refine ⟨by decide, by decide, ?_, ?_⟩
  · exact (sessionTable_rebind_eviction
      (SessionTable.mk [(1, SessEntry.mk 10 20 [(0, 9)])] [(9, 1)]) 1 0 5 6
      (SessEntry.mk 10 20 [(0, 9)]) (by decide) (by decide)).1
  · exact (sessionTable_rebind_eviction
      (SessionTable.mk [(1, SessEntry.mk 10 20 [(0, 9)])] [(9, 1)]) 1 0 5 6
      (SessEntry.mk 10 20 [(0, 9)]) (by decide) (by decide)).2.2.1

/-- Claim C1 (code bug evaluation): replay suppression of
`RecentFilter.check`.  The claim states that after 1200 seconds of
inactivity, `check b` returns `true` again, and that the rotation step runs
only when the current filter is older than 600 seconds.  The code never
refreshes `curr_time` after a rotation, so the rotation condition compares
against the construction instant forever.  Concretely: `check b` at t = 0
returns `true`; the next `check b` at t = 1300 s (after 1300 > 1200 seconds
of complete inactivity) performs a single rotation, moving `b` into the
previous bloom, and returns `false` — the claim requires `true`.  Moreover
the subsequent call at t = 1301 s rotates again even though the current
filter is only 1 second old, exhibiting the broken rotation condition. -/
theorem recentFilter_code_bug_eval :
    ((RecentFilter.new 0).check 0 42).1 = true ∧
    (((RecentFilter.new 0).check 0 42).2.check 1300000000000 42).1 = false ∧
    (((RecentFilter.new 0).check 0 42).2.check 1300000000000 42).2.curr_time = 0 ∧
    ((((RecentFilter.new 0).check 0 42).2.check 1300000000000 42).2.check
        1301000000000 99).2.curr_bloom = [99] := by
  decide


/-! ### Computation rules for mark_acked -/

theorem Inflight.mark_acked_empty (st : Inflight) (now s : Nat)
    (h : st.segments = []) : st.mark_acked now s = (false, st) := by
  unfold Inflight.mark_acked
  rw [h]
  rfl

theorem Inflight.mark_acked_below_front (st : Inflight) (now s : Nat)
    (e : InflightEntry) (hh : st.segments.head? = some e)
    (hlt : s < e.seqno) : st.mark_acked now s = (false, st) := by
  unfold Inflight.mark_acked
  split
  next entry heq =>
    rw [hh] at heq
    injection heq with h2
    subst h2
    rw [if_neg (by omega)]
  next heq =>
    rw [hh] at heq

theorem Inflight.mark_acked_ge (st : Inflight) (now s : Nat)
    (e : InflightEntry) (hh : st.segments.head? = some e)
    (hge : e.seqno ≤ s) :
    st.mark_acked now s =
      ((st.mark_acked_inner now (s - e.seqno)).1,
       { (st.mark_acked_inner now (s - e.seqno)).2 with
         segments := (st.mark_acked_inner now (s - e.seqno)).2.segments.dropWhile
           (fun e => e.acked) }) := by
  unfold Inflight.mark_acked
  split
  next entry heq =>
    rw [hh] at heq
    injection heq with h2
    subst h2
    rw [if_pos hge]
  next heq =>
    rw [hh] at heq
    exact Option.noConfusion heq

theorem Inflight.mark_acked_inner_none (st : Inflight) (now off : Nat)
    (h : st.segments[off]? = none) :
    st.mark_acked_inner now off = (false, st) := by
  unfold Inflight.mark_acked_inner
  split
  next seg heq =>
    rw [h] at heq
    exact Option.noConfusion heq
  next heq => rfl

theorem Inflight.mark_acked_inner_acked (st : Inflight) (now off : Nat)
    (seg : InflightEntry) (h : st.segments[off]? = some seg)
    (ha : seg.acked = true) : st.mark_acked_inner now off = (false, st) := by
  unfold Inflight.mark_acked_inner
  split
  next seg' heq =>
    rw [h] at heq
    injection heq with h2
    subst h2
    rw [ha]
    simp
  next heq =>
    rw [h] at heq

theorem Inflight.mark_acked_inner_success (st : Inflight) (now off : Nat)
    (seg : InflightEntry) (h : st.segments[off]? = some seg)
    (ha : seg.acked = false) :
    (st.mark_acked_inner now off).1 = true ∧
    (st.mark_acked_inner now off).2.segments
      = st.segments.set off { seg with acked := true } ∧
    (st.mark_acked_inner now off).2.inflight_count = st.inflight_count - 1 ∧
    (st.mark_acked_inner now off).2.delivered = st.delivered + 1 ∧
    (st.mark_acked_inner now off).2.delivered_time = now ∧
    (st.mark_acked_inner now off).2.times = st.times ∧
    (st.mark_acked_inner now off).2.fast_retrans = st.fast_retrans ∧
    (st.mark_acked_inner now off).2.rtt
      = st.rtt.record_sample now
          (if seg.retrans = 0 then some (now - seg.send_time) else none) := by
  have key : st.mark_acked_inner now off =
      (true,
       { st with
         delivered := st.delivered + 1,
         delivered_time := now,
         segments := st.segments.set off { seg with acked := true },
         inflight_count := st.inflight_count - 1,
         rate :=
           if seg.retrans = 0 then
             match seg.payload with
             | .Rel =>
               st.rate.record_sample now
                 (((st.delivered + 1 - seg.delivered : Nat) : Rat) /
                   (((now - seg.delivered_time : Nat) : Rat) / 1000000000))
             | .Urel => st.rate
           else st.rate,
         rtt := st.rtt.record_sample now
           (if seg.retrans = 0 then some (now - seg.send_time) else none) }) := by
    unfold Inflight.mark_acked_inner
    split
    next seg' heq =>
      rw [h] at heq
      injection heq with h2
      subst h2
      rw [ha]
      simp
    next heq =>
      rw [h] at heq
      exact Option.noConfusion heq
  rw [key]
  exact ⟨rfl, rfl, rfl, rfl, rfl, rfl, rfl, rfl⟩

/-- record_sample with no sample (Karn-suppressed) can refresh the min-RTT
tracker but leaves srtt, rttvar and rto untouched. -/
theorem RttCalculator.record_sample_none_fields (r : RttCalculator)
    (now : Nat) :
    (r.record_sample now none).srtt = r.srtt ∧
    (r.record_sample now none).rttvar = r.rttvar ∧
    (r.record_sample now none).rto = r.rto := by
  unfold RttCalculator.record_sample
  dsimp only
  split
  · exact ⟨rfl, rfl, rfl⟩
  · exact ⟨rfl, rfl, rfl⟩

/-- Claim C6: Karn's rule.  In `mark_acked`, an RTT sample (now minus the
segment's send time) is fed to the estimator exactly for segments whose
retrans counter is 0 at ack time (first conjunct: acking a
never-retransmitted segment updates the estimator with precisely that
sample); a segment that has been retransmitted at least once never updates
srtt, rttvar or rto (second conjunct: whenever the entry addressed by the
ack has nonzero retrans, those three fields are unchanged — the code
passes `None` to `record_sample`, which only runs the min-RTT refresh). -/
theorem inflight_karn_rule (st : Inflight) (now s : Nat) :
    (∀ e, st.get_seqno s = some e → e.acked = false → e.retrans = 0 →
      (st.mark_acked now s).2.rtt
        = st.rtt.record_sample now (some (now - e.send_time))) ∧
    ((∀ e, st.get_seqno s = some e → e.retrans ≠ 0) →
      ((st.mark_acked now s).2.rtt.srtt = st.rtt.srtt ∧
       (st.mark_acked now s).2.rtt.rttvar = st.rtt.rttvar ∧
       (st.mark_acked now s).2.rtt.rto = st.rtt.rto)) := by
  constructor
  · intro e hget hacked hret
    unfold Inflight.get_seqno at hget
    cases hh : st.segments.head? with
    | none => rw [hh] at hget; cases hget
    | some first =>
      rw [hh] at hget
      dsimp only at hget
      by_cases hge : first.seqno ≤ s
      · rw [if_pos hge] at hget
        rw [Inflight.mark_acked_ge st now s first hh hge]
        have hs := Inflight.mark_acked_inner_success st now (s - first.seqno) e hget hacked
        show (st.mark_acked_inner now (s - first.seqno)).2.rtt = _
        rw [hs.2.2.2.2.2.2.2, hret]
        rw [if_pos rfl]
      · rw [if_neg (by omega)] at hget
        cases hget
  · intro hret
    cases hh : st.segments.head? with
    | none =>
      rw [Inflight.mark_acked_empty st now s (List.head?_eq_none_iff.mp hh)]
      exact ⟨rfl, rfl, rfl⟩
    | some first =>
      by_cases hge : first.seqno ≤ s
      · rw [Inflight.mark_acked_ge st now s first hh hge]
        cases hseg : st.segments[(s - first.seqno)]? with
        | none =>
          rw [Inflight.mark_acked_inner_none st now _ hseg]
          exact ⟨rfl, rfl, rfl⟩
        | some seg =>
          have hget : st.get_seqno s = some seg := by
            unfold Inflight.get_seqno
            rw [hh]
            dsimp only
            rw [if_pos hge]
            exact hseg
          cases hacked : seg.acked with
          | true =>
            rw [Inflight.mark_acked_inner_acked st now _ seg hseg hacked]
            exact ⟨rfl, rfl, rfl⟩
          | false =>
            have hs := Inflight.mark_acked_inner_success st now (s - first.seqno) seg hseg hacked
            have hr : seg.retrans ≠ 0 := hret seg hget
            refine ⟨?_, ?_, ?_⟩
            · show (st.mark_acked_inner now (s - first.seqno)).2.rtt.srtt = _
              rw [hs.2.2.2.2.2.2.2, if_neg hr]
              exact (RttCalculator.record_sample_none_fields st.rtt now).1
            · show (st.mark_acked_inner now (s - first.seqno)).2.rtt.rttvar = _
              rw [hs.2.2.2.2.2.2.2, if_neg hr]
              exact (RttCalculator.record_sample_none_fields st.rtt now).2.1
            · show (st.mark_acked_inner now (s - first.seqno)).2.rtt.rto = _
              rw [hs.2.2.2.2.2.2.2, if_neg hr]
              exact (RttCalculator.record_sample_none_fields st.rtt now).2.2
      · rw [Inflight.mark_acked_below_front st now s first hh (by omega)]
        exact ⟨rfl, rfl, rfl⟩

/-- Witness for C6 on a concrete state: a two-entry queue whose second
entry has been retransmitted 3 times; acking it leaves srtt, rttvar and
rto unchanged, while acking the first (never-retransmitted) entry feeds
the sample now - send_time into the estimator. -/
theorem inflight_karn_rule_witness :
    ((Inflight.mk
        [⟨0, false, 5, 0, .Urel, 0, 0⟩, ⟨1, false, 7, 3, .Urel, 0, 0⟩]
        2 [] [] (RttCalculator.init 0) (RateCalculator.init 0) 0 0).get_seqno 0
      = some ⟨0, false, 5, 0, .Urel, 0, 0⟩) ∧
    ((Inflight.mk
        [⟨0, false, 5, 0, .Urel, 0, 0⟩, ⟨1, false, 7, 3, .Urel, 0, 0⟩]
        2 [] [] (RttCalculator.init 0) (RateCalculator.init 0) 0 0).mark_acked 100 0).2.rtt
      = (RttCalculator.init 0).record_sample 100 (some (100 - 5)) ∧
    ((Inflight.mk
        [⟨0, false, 5, 0, .Urel, 0, 0⟩, ⟨1, false, 7, 3, .Urel, 0, 0⟩]
        2 [] [] (RttCalculator.init 0) (RateCalculator.init 0) 0 0).mark_acked 100 1).2.rtt.srtt
      = (RttCalculator.init 0).srtt := by
  refine ⟨by decide, ?_, ?_⟩
  · exact (inflight_karn_rule _ 100 0).1 ⟨0, false, 5, 0, .Urel, 0, 0⟩
      (by decide) rfl rfl
  · refine ((inflight_karn_rule _ 100 1).2 ?_).1
    intro e he
    rw [show (Inflight.mk
        [⟨0, false, 5, 0, .Urel, 0, 0⟩, ⟨1, false, 7, 3, .Urel, 0, 0⟩]
        2 [] [] (RttCalculator.init 0) (RateCalculator.init 0) 0 0).get_seqno 1
        = some ⟨1, false, 7, 3, .Urel, 0, 0⟩ from by decide] at he
    cases he
    decide

/-- Claim C8 (counterexample): the rate is NOT governed by the time since
the last update that changed it.  Starting at rate 100 (t = 0): a sample
of 50 at t = 5 s takes the time branch and changes the rate to 50; a
second sample of 50 at t = 10 s again takes the time branch, assigning
rate := 50 — an update that does not change the rate — and refreshing
rate_update_time to 10 s; a sample of 30 at t = 13 s then finds only
3 (not more than 3) seconds elapsed and is discarded, although more than
3 seconds (8 s) have elapsed since the last update that changed the rate
(t = 5 s), where the claim requires rate = 30. -/
theorem rateCalculator_counterexample :
    ((RateCalculator.init 0).record_sample 5000000000 50).rate = 50 ∧
    ((RateCalculator.init 0).record_sample 5000000000 50).rate_update_time
      = 5000000000 ∧
    (((RateCalculator.init 0).record_sample 5000000000 50).record_sample
        10000000000 50).rate = 50 ∧
    (((RateCalculator.init 0).record_sample 5000000000 50).record_sample
        10000000000 50).rate_update_time = 10000000000 ∧
    ((((RateCalculator.init 0).record_sample 5000000000 50).record_sample
        10000000000 50).record_sample 13000000000 30).rate = 50 := by
  decide

/-- Claim C8 (amended): RateCalculator starts at rate 100, and over any
timestamped sample run, record_sample(s) sets rate = s exactly when
s > rate or more than 3 truncated seconds have elapsed since the last
assignment to the rate — any assignment, including ones that re-assign
the same value — as captured by the spec-side function `rateSpecStep`;
with s ≤ rate and no such elapse, the rate and its update time are
unchanged. -/
theorem rateCalculator_update_rule (t0 : Nat) (samples : List (Nat × Rat)) :
    (RateCalculator.init t0).rate = 100 ∧
    (samples.foldl (fun rc q => rc.record_sample q.1 q.2)
        (RateCalculator.init t0)).rate = (rateSpecRun t0 samples).1 ∧
    (samples.foldl (fun rc q => rc.record_sample q.1 q.2)
        (RateCalculator.init t0)).rate_update_time = (rateSpecRun t0 samples).2 := by
  have step : ∀ (rc : RateCalculator) (t : Nat) (s : Rat),
      rc.record_sample t s
        = ⟨(rateSpecStep (rc.rate, rc.rate_update_time) t s).1,
           (rateSpecStep (rc.rate, rc.rate_update_time) t s).2⟩ := by
    intro rc t s
    unfold RateCalculator.record_sample rateSpecStep
    by_cases h : (t - rc.rate_update_time) / 1000000000 > 3 ∨ s > rc.rate
    · rw [if_pos h, if_pos (Or.symm h)]
    · rw [if_neg h, if_neg (fun h2 => h (Or.symm h2))]
  have key : ∀ (samples : List (Nat × Rat)) (rc : RateCalculator),
      samples.foldl (fun rc q => rc.record_sample q.1 q.2) rc
        = ⟨(samples.foldl (fun p q => rateSpecStep p q.1 q.2)
              (rc.rate, rc.rate_update_time)).1,
           (samples.foldl (fun p q => rateSpecStep p q.1 q.2)
              (rc.rate, rc.rate_update_time)).2⟩ := by
    intro samples
    induction samples with
    | nil => intro rc; rfl
    | cons q rest ih =>
      intro rc
      rw [List.foldl_cons, List.foldl_cons, ih, step]
  exact ⟨rfl, by rw [key]; rfl, by rw [key]; rfl⟩

/-- Claim C10: offset indexing under contiguity.  When the seqnos in
`segments` are contiguous ascending from the front, `get_seqno s` returns
the entry whose seqno is exactly `s` iff `front.seqno ≤ s <
front.seqno + len`, and `none` otherwise (first conjunct, stated on the
seqno of the returned entry); and a duplicate `insert s m` for an `s`
already present leaves `segments` and `inflight_count` (and every other
field) unchanged, only rescheduling s's deadline in the timer queue at
`now + rto` (second conjunct, which holds for any state with `s`
present). -/
theorem inflight_get_seqno_insert (st : Inflight) (f : Nat)
    (hc : st.segments.map (fun e => e.seqno)
      = List.range' f st.segments.length) :
    (∀ s : Nat, (st.get_seqno s).map (fun e => e.seqno)
        = if f ≤ s ∧ s < f + st.segments.length then some s else none) ∧
    (∀ s now msg, (st.get_seqno s).isSome = true →
      st.insert now s msg
        = { st with times := alInsert st.times s (now + st.rtt.rto_ns) }) := by
  constructor
  · intro s
    cases hh : st.segments.head? with
    | none =>
      have hnil : st.segments = [] := List.head?_eq_none_iff.mp hh
      unfold Inflight.get_seqno
      rw [hh]
      rw [if_neg (by rw [hnil]; simp only [List.length_nil]; omega)]
      rfl
    | some e0 =>
      have hlen : 0 < st.segments.length := by
        cases hl : st.segments with
        | nil => rw [hl] at hh; cases hh
        | cons a l => simp [hl]
      have hf : e0.seqno = f := by
        have h1 : (st.segments.map (fun e => e.seqno)).head? = some e0.seqno := by
          rw [List.head?_map, hh]
          rfl
        rw [hc] at h1
        cases hl : st.segments.length with
        | zero => omega
        | succ n =>
          rw [hl, List.range'_succ] at h1
          simp at h1
          omega
      unfold Inflight.get_seqno
      rw [hh]
      dsimp only
      by_cases hs : e0.seqno ≤ s
      · rw [if_pos hs]
        have hmap : (st.segments[(s - e0.seqno)]?).map (fun e => e.seqno)
            = (List.range' f st.segments.length)[(s - e0.seqno)]? := by
          rw [← hc, List.getElem?_map]
        rw [hmap]
        by_cases hrange : s < f + st.segments.length
        · rw [List.getElem?_range' f 1 (by omega)]
          rw [if_pos (by omega)]
          rw [Option.some.injEq]
          omega
        · rw [List.getElem?_eq_none (by simp; omega)]
          rw [if_neg (by omega)]
      · rw [if_neg hs]
        rw [if_neg (by omega)]
        rfl
  · intro s now msg hsome
    unfold Inflight.insert
    rw [if_neg (by rw [Option.isNone_iff_eq_none]; intro h2; rw [h2] at hsome; cases hsome)]

/-- Witness for C10 on the concrete queue built by inserting seqnos 3 and
4 from a fresh Inflight. -/
theorem inflight_get_seqno_insert_witness :
    ((((Inflight.new 0).insert 0 3 .Urel).insert 0 4 .Urel).segments.map
        (fun e => e.seqno)
      = List.range' 3
          (((Inflight.new 0).insert 0 3 .Urel).insert 0 4 .Urel).segments.length) ∧
    ((∀ s : Nat,
        ((((Inflight.new 0).insert 0 3 .Urel).insert 0 4 .Urel).get_seqno s).map
            (fun e => e.seqno)
          = if 3 ≤ s ∧ s < 3 +
                (((Inflight.new 0).insert 0 3 .Urel).insert 0 4 .Urel).segments.length
            then some s else none) ∧
     (∀ s now msg,
        ((((Inflight.new 0).insert 0 3 .Urel).insert 0 4 .Urel).get_seqno s).isSome = true →
        (((Inflight.new 0).insert 0 3 .Urel).insert 0 4 .Urel).insert now s msg
          = { ((Inflight.new 0).insert 0 3 .Urel).insert 0 4 .Urel with
              times := alInsert
                ((((Inflight.new 0).insert 0 3 .Urel).insert 0 4 .Urel)).times s
                (now + ((((Inflight.new 0).insert 0 3 .Urel).insert 0 4 .Urel)).rtt.rto_ns) })) :=
  ⟨by decide, inflight_get_seqno_insert _ 3 (by decide)⟩

/-- Geometric lower bound on the iterated integer backoff: n rounds of
multiply-by-3-then-halve lose less than 1 ns per round, so the result
stays at or above (r - 1) * (3/2)^n + 1, stated multiplied out by 2^n. -/
theorem iter_rto_lower (a : Nat) :
    ∀ n, a * 3 ^ n + 2 ^ n ≤ 2 ^ n * Inflight.iter_rto (a + 1) n := by
  intro n
  induction n with
  | zero =>
    simp only [pow_zero, mul_one, one_mul, Inflight.iter_rto]
    omega
  | succ k ih =>
    have hq : 3 * Inflight.iter_rto (a + 1) k
        ≤ 2 * (Inflight.iter_rto (a + 1) k * 3 / 2) + 1 := by omega
    have step : a * 3 ^ (k + 1) + 2 ^ (k + 1) + 2 ^ k
        ≤ 2 ^ (k + 1) * (Inflight.iter_rto (a + 1) k * 3 / 2) + 2 ^ k := by
      calc a * 3 ^ (k + 1) + 2 ^ (k + 1) + 2 ^ k
          = 3 * (a * 3 ^ k + 2 ^ k) := by ring
        _ ≤ 3 * (2 ^ k * Inflight.iter_rto (a + 1) k) :=
            Nat.mul_le_mul_left 3 ih
        _ = 2 ^ k * (3 * Inflight.iter_rto (a + 1) k) := by ring
        _ ≤ 2 ^ k * (2 * (Inflight.iter_rto (a + 1) k * 3 / 2) + 1) :=
            Nat.mul_le_mul_left _ hq
        _ = 2 ^ (k + 1) * (Inflight.iter_rto (a + 1) k * 3 / 2) + 2 ^ k := by
            ring
    have goal2 := Nat.le_of_add_le_add_right step
    simpa only [Inflight.iter_rto] using goal2

/-- Claim C7 (counterexample): the exact bound "after n retransmits the
scheduled deadline is at least original_rto * (3/2)^n past the retransmit
instant" fails for n = 9 with the default RTO of 300 ms: the code computes
the backoff as nine iterations of multiply-by-3-then-integer-halve on
300000000 ns, which yields 11533007812 ns, strictly below
300000000 * (3/2)^9 = 5904900000000 / 512 ns.  Concretely, a queue holding
seqno 0 with retrans = 8 and the default estimator times out at now = 0
and is rescheduled at 11533007812, and 512 * 11533007812 <
300000000 * 3^9. -/
theorem inflight_backoff_counterexample :
    alLookup ((Inflight.mk [⟨0, false, 0, 8, .Urel, 0, 0⟩] 1 [(0, 0)] []
        (RttCalculator.init 0) (RateCalculator.init 0) 0
        0).wait_first_timeout_arm 0 0).2.times 0 = some 11533007812 ∧
    512 * 11533007812 < 300000000 * 3 ^ 9 := by
  constructor
  · decide
  · norm_num

/-- Claim C7 (amended): retransmit backoff.  When `wait_first` times out on
an unacked seqno s (popped from the timer queue at instant `now`), it
increments that entry's retrans counter and reschedules s with deadline
`now + r_n`, where `r_n` is the estimator's current RTO scaled by n = new
retrans count iterations of multiply-by-3-then-integer-divide-by-2 (Rust
`Duration` arithmetic at nanosecond precision); `r_n` is at least
`(rto - 1 ns) * (3/2)^n` (fourth conjunct, multiplied out by `2^n`), the
exact `rto * (3/2)^n` being unattainable only because of nanosecond
truncation.  Fast-retransmit entries take strict priority: if
`fast_retrans` is non-empty, `wait_first` pops its smallest seqno and
returns `(seq, false)` leaving the timer queue and the segments untouched
(last conjunct). -/
theorem inflight_retransmit_backoff (st : Inflight) (now seqno : Nat)
    (seg first : InflightEntry)
    (hh : st.segments.head? = some first) (hge : first.seqno ≤ seqno)
    (hseg : st.segments[(seqno - first.seqno)]? = some seg)
    (hacked : seg.acked = false) :
    (st.wait_first_timeout_arm now seqno).1 = some (seqno, true) ∧
    alLookup (st.wait_first_timeout_arm now seqno).2.times seqno
      = some (now + Inflight.iter_rto st.rtt.rto_ns (seg.retrans + 1)) ∧
    ((st.wait_first_timeout_arm now seqno).2.segments[(seqno - first.seqno)]?).map
        (fun e => e.retrans) = some (seg.retrans + 1) ∧
    (∀ r n, 1 ≤ r →
      (r - 1) * 3 ^ n + 2 ^ n ≤ 2 ^ n * Inflight.iter_rto r n) ∧
    (∀ (st2 : Inflight) (m : Nat), st2.fast_retrans.min? = some m →
      st2.wait_first_fast
        = some ((m, false),
            { st2 with fast_retrans := st2.fast_retrans.erase m })) := by
  have harm : st.wait_first_timeout_arm now seqno =
      (some (seqno, true),
       { st with
         times := alInsert (alRemove st.times seqno) seqno
           (now + Inflight.iter_rto st.rtt.rto_ns (seg.retrans + 1)),
         segments := st.segments.set (seqno - first.seqno)
           { seg with retrans := seg.retrans + 1 } }) := by
    unfold Inflight.wait_first_timeout_arm
    dsimp only
    split
    next first' heq =>
      rw [hh] at heq
      injection heq with h2
      subst h2
      rw [if_pos hge]
      split
      next seg' heq2 =>
        rw [hseg] at heq2
        injection heq2 with h3
        subst h3
        rw [hacked]
        simp
      next heq2 =>
        rw [hseg] at heq2
        exact Option.noConfusion heq2
    next heq =>
      rw [hh] at heq
      exact Option.noConfusion heq
  have hlt : seqno - first.seqno < st.segments.length := by
    rcases List.getElem?_eq_some.mp hseg with ⟨hw, _⟩
    exact hw
  refine ⟨by rw [harm], ?_, ?_, ?_, ?_⟩
  · rw [harm]
    exact alLookup_alInsert_self _ _ _
  · rw [harm]
    show ((st.segments.set (seqno - first.seqno)
        { seg with retrans := seg.retrans + 1 })[(seqno - first.seqno)]?).map
        (fun e => e.retrans) = _
    rw [List.getElem?_set]
    rw [if_pos rfl, if_pos hlt]
    rfl
  · intro r n hr
    have := iter_rto_lower (r - 1) n
    rw [Nat.sub_add_cancel hr] at this
    exact this
  · intro st2 m hm
    unfold Inflight.wait_first_fast
    rw [hm]

/-- Witness for C7's amended theorem: a fresh Inflight after inserting
seqno 0 at t = 0 (deadline 300 ms); the timeout arm at now = 0 reschedules
it at 450 ms = one 3/2 scaling of the default 300 ms RTO. -/
theorem inflight_retransmit_backoff_witness :
    (((Inflight.new 0).insert 0 0 .Urel).segments.head?
      = some ⟨0, false, 0, 0, .Urel, 0, 0⟩) ∧
    ((((Inflight.new 0).insert 0 0 .Urel).segments[(0 - 0 : Nat)]?)
      = some ⟨0, false, 0, 0, .Urel, 0, 0⟩) ∧
    ((((Inflight.new 0).insert 0 0 .Urel).wait_first_timeout_arm 0 0).1
      = some (0, true)) ∧
    alLookup (((Inflight.new 0).insert 0 0 .Urel).wait_first_timeout_arm 0 0).2.times 0
      = some (0 + Inflight.iter_rto ((Inflight.new 0).insert 0 0 .Urel).rtt.rto_ns (0 + 1)) := by
  refine ⟨by decide, by decide, ?_, ?_⟩
  · exact (inflight_retransmit_backoff ((Inflight.new 0).insert 0 0 .Urel) 0 0
      ⟨0, false, 0, 0, .Urel, 0, 0⟩ ⟨0, false, 0, 0, .Urel, 0, 0⟩
      (by decide) (by decide) (by decide) rfl).1
  · exact (inflight_retransmit_backoff ((Inflight.new 0).insert 0 0 .Urel) 0 0
      ⟨0, false, 0, 0, .Urel, 0, 0⟩ ⟨0, false, 0, 0, .Urel, 0, 0⟩
      (by decide) (by decide) (by decide) rfl).2.1

/-! ### List helpers for the inflight proofs -/

theorem dropWhile_eq_self_of_head {α : Type} (l : List α) (p : α → Bool)
    (a : α) (hh : l.head? = some a) (hp : p a = false) :
    l.dropWhile p = l := by
  cases l with
  | nil => cases hh
  | cons x xs =>
    rw [List.head?_cons] at hh
    injection hh with h2
    subst h2
    rw [List.dropWhile_cons, hp]
    simp

theorem list_set_of_getElem {α : Type} {l : List α} {i : Nat} {a : α}
    (h : l[i]? = some a) : l.set i a = l := by
  apply List.ext_getElem?
  intro n
  rw [List.getElem?_set]
  by_cases hin : i = n
  · subst hin
    rcases List.getElem?_eq_some.mp h with ⟨hw, _⟩
    rw [if_pos rfl, if_pos hw]
    exact h.symm
  · rw [if_neg hin]

theorem dropWhile_eq_drop {α : Type} (l : List α) (p : α → Bool) :
    l.dropWhile p = l.drop (l.takeWhile p).length :=
  calc l.dropWhile p
      = ((l.takeWhile p) ++ (l.dropWhile p)).drop (l.takeWhile p).length :=
        (List.drop_left _ _).symm
    _ = l.drop (l.takeWhile p).length := by
        rw [List.takeWhile_append_dropWhile]

theorem range'_drop (f n d : Nat) :
    (List.range' f n).drop d = List.range' (f + d) (n - d) := by
  apply List.ext_getElem?
  intro j
  rw [List.getElem?_drop]
  by_cases hj : d + j < n
  · rw [List.getElem?_range' f 1 hj, List.getElem?_range' (f + d) 1 (by omega)]
    simp only [one_mul, Option.some.injEq]
    omega
  · rw [List.getElem?_eq_none (by simp only [List.length_range']; omega),
      List.getElem?_eq_none (by simp only [List.length_range']; omega)]

/-- A mark_acked whose lookup can only find already-acked entries returns
false. -/
theorem Inflight.mark_acked_fst_false (st2 : Inflight) (now2 s : Nat)
    (hyp : ∀ e0 seg, st2.segments.head? = some e0 → e0.seqno ≤ s →
       st2.segments[(s - e0.seqno)]? = some seg → seg.acked = true) :
    (st2.mark_acked now2 s).1 = false := by
  cases hh : st2.segments.head? with
  | none =>
    rw [Inflight.mark_acked_empty st2 now2 s (List.head?_eq_none_iff.mp hh)]
  | some e0 =>
    by_cases hge : e0.seqno ≤ s
    · rw [Inflight.mark_acked_ge st2 now2 s e0 hh hge]
      cases hseg : st2.segments[(s - e0.seqno)]? with
      | none => rw [Inflight.mark_acked_inner_none st2 now2 _ hseg]
      | some seg =>
        rw [Inflight.mark_acked_inner_acked st2 now2 _ seg hseg
          (hyp e0 seg hh hge hseg)]
    · rw [Inflight.mark_acked_below_front st2 now2 s e0 hh (by omega)]

/-- On a queue contiguous from f2 whose entry at seqno s (when present and
addressed, s at or beyond the front) is already acked, mark_acked returns
false. -/
theorem Inflight.mark_acked_fst_false_contig (st2 : Inflight)
    (now2 s f2 : Nat)
    (hc2 : st2.segments.map (fun e => e.seqno)
      = List.range' f2 st2.segments.length)
    (hacked_at : f2 ≤ s → ∀ seg2, st2.segments[(s - f2)]? = some seg2 →
      seg2.acked = true) :
    (st2.mark_acked now2 s).1 = false := by
  apply Inflight.mark_acked_fst_false
  intro e1 seg2 hh1 hge1 hseg2
  have hlen : 0 < st2.segments.length := by
    cases hl2 : st2.segments with
    | nil => rw [hl2] at hh1; cases hh1
    | cons a l => simp [hl2]
  have hf1 : e1.seqno = f2 := by
    have h1 : (st2.segments.map (fun e => e.seqno))[0]? = some e1.seqno := by
      rw [List.getElem?_map, ← List.head?_eq_getElem?, hh1]
      rfl
    rw [hc2, List.getElem?_range' f2 1 (by omega)] at h1
    injection h1 with h2
    omega
  rw [hf1] at hseg2 hge1
  exact hacked_at hge1 seg2 hseg2

/-- Claim C9 (counterexample): mark_acked is NOT safe on acks of absent
seqnos, and can return true more than once for the same seqno.  After
`insert 0; insert 5` from a fresh Inflight the queue holds seqnos [0, 5]
and seqno 1 is absent, yet `mark_acked 1` returns true (offset indexing
reaches the entry with seqno 5) and decrements inflight_count from 2 to 1
— the claim requires false and an unchanged state.  Moreover with
`insert 0; mark_acked 0; insert 0; mark_acked 0` from fresh, `mark_acked 0`
returns true twice — the claim allows at most one true per seqno. -/
theorem inflight_mark_acked_counterexample :
    ((((Inflight.new 0).insert 0 0 .Urel).insert 0 5 .Urel).mark_acked 0 1).1
      = true ∧
    ((((Inflight.new 0).insert 0 0 .Urel).insert 0 5 .Urel).mark_acked 0 1).2.inflight_count
      = 1 ∧
    (((Inflight.new 0).insert 0 0 .Urel).insert 0 5 .Urel).inflight_count = 2 ∧
    (((Inflight.new 0).insert 0 0 .Urel).mark_acked 0 0).1 = true ∧
    (((((Inflight.new 0).insert 0 0 .Urel).mark_acked 0 0).2.insert 0 0 .Urel).mark_acked 0 0).1
      = true := by
  refine ⟨by decide, by decide, by decide, by decide, by decide⟩

/-- Claim C9 (amended): mark_acked is idempotent and safe on stale acks on
contiguous queues.  For every Inflight state whose segment seqnos are
contiguous ascending from the front (as produced by in-order use) and
whose front entry is unacked (an invariant of all reachable states):
calling `mark_acked s` when s is below the front seqno, at or beyond
front + len, or resolving to an already-acked entry, returns false and
leaves the entire state unchanged; and whenever `mark_acked s` returns
true, an immediately repeated `mark_acked s` (no operation in between, so
in particular no re-insertion of s) returns false. -/
theorem inflight_mark_acked_stale_safe (st : Inflight) (now now2 s f : Nat)
    (hc : st.segments.map (fun e => e.seqno)
      = List.range' f st.segments.length)
    (hfront : ∀ e, st.segments.head? = some e → e.acked = false) :
    ((s < f ∨ f + st.segments.length ≤ s ∨
        (∃ e, st.get_seqno s = some e ∧ e.acked = true)) →
      st.mark_acked now s = (false, st)) ∧
    ((st.mark_acked now s).1 = true →
      ((st.mark_acked now s).2.mark_acked now2 s).1 = false) := by
  constructor
  · intro hdis
    cases hh : st.segments.head? with
    | none => exact Inflight.mark_acked_empty st now s (List.head?_eq_none_iff.mp hh)
    | some e0 =>
      have hlen : 0 < st.segments.length := by
        cases hl2 : st.segments with
        | nil => rw [hl2] at hh; cases hh
        | cons a l => simp [hl2]
      have hf : e0.seqno = f := by
        have h1 : (st.segments.map (fun e => e.seqno))[0]? = some e0.seqno := by
          rw [List.getElem?_map, ← List.head?_eq_getElem?, hh]
          rfl
        rw [hc, List.getElem?_range' f 1 (by omega)] at h1
        injection h1 with h2
        omega
      have hdw : st.segments.dropWhile (fun e => e.acked) = st.segments :=
        dropWhile_eq_self_of_head _ _ e0 hh (hfront e0 hh)
      rcases hdis with hlt | hbig | ⟨e, hget, hack⟩
      · exact Inflight.mark_acked_below_front st now s e0 hh (by omega)
      · rw [Inflight.mark_acked_ge st now s e0 hh (by omega)]
        rw [Inflight.mark_acked_inner_none st now _
          (List.getElem?_eq_none (by omega))]
        rw [hdw]
      · unfold Inflight.get_seqno at hget
        rw [hh] at hget
        dsimp only at hget
        by_cases hge : e0.seqno ≤ s
        · rw [if_pos hge] at hget
          rw [Inflight.mark_acked_ge st now s e0 hh hge]
          rw [Inflight.mark_acked_inner_acked st now _ e hget hack]
          rw [hdw]
        · rw [if_neg (by omega)] at hget
          cases hget
  · intro htrue
    cases hh : st.segments.head? with
    | none =>
      rw [Inflight.mark_acked_empty st now s (List.head?_eq_none_iff.mp hh)] at htrue
      cases htrue
    | some e0 =>
      have hlen : 0 < st.segments.length := by
        cases hl2 : st.segments with
        | nil => rw [hl2] at hh; cases hh
        | cons a l => simp [hl2]
      have hf : e0.seqno = f := by
        have h1 : (st.segments.map (fun e => e.seqno))[0]? = some e0.seqno := by
          rw [List.getElem?_map, ← List.head?_eq_getElem?, hh]
          rfl
        rw [hc, List.getElem?_range' f 1 (by omega)] at h1
        injection h1 with h2
        omega
      by_cases hge : e0.seqno ≤ s
      · rw [Inflight.mark_acked_ge st now s e0 hh hge] at htrue ⊢
        cases hseg : st.segments[(s - e0.seqno)]? with
        | none =>
          rw [Inflight.mark_acked_inner_none st now _ hseg] at htrue
          cases htrue
        | some seg =>
          cases hacked2 : seg.acked with
          | true =>
            rw [Inflight.mark_acked_inner_acked st now _ seg hseg hacked2] at htrue
            cases htrue
          | false =>
            have hs := Inflight.mark_acked_inner_success st now (s - e0.seqno) seg hseg hacked2
            have hofflt : s - e0.seqno < st.segments.length := by
              rcases List.getElem?_eq_some.mp hseg with ⟨hw, _⟩
              exact hw
            have hseqseg : seg.seqno = f + (s - e0.seqno) := by
              have h1 : (st.segments.map (fun e => e.seqno))[(s - e0.seqno)]?
                  = some seg.seqno := by
                rw [List.getElem?_map, hseg]
                rfl
              rw [hc, List.getElem?_range' f 1 hofflt] at h1
              injection h1 with h2
              omega
            have hmapL : (st.segments.set (s - e0.seqno)
                { seg with acked := true }).map (fun e => e.seqno)
                = List.range' f st.segments.length := by
              rw [List.map_set]
              show (st.segments.map (fun e => e.seqno)).set (s - e0.seqno) seg.seqno = _
              rw [hc]
              apply list_set_of_getElem
              rw [List.getElem?_range' f 1 hofflt]
              rw [hseqseg]
              simp
            apply Inflight.mark_acked_fst_false_contig _ now2 s
              (f + ((st.segments.set (s - e0.seqno)
                { seg with acked := true }).takeWhile (fun e => e.acked)).length)
            · show (((st.mark_acked_inner now (s - e0.seqno)).2.segments.dropWhile
                  (fun e => e.acked)).map (fun e => e.seqno))
                = List.range'
                    (f + ((st.segments.set (s - e0.seqno)
                      { seg with acked := true }).takeWhile (fun e => e.acked)).length)
                    ((st.mark_acked_inner now (s - e0.seqno)).2.segments.dropWhile
                      (fun e => e.acked)).length
              rw [hs.2.1, dropWhile_eq_drop]
              rw [List.map_drop, hmapL, range'_drop]
              rw [List.length_drop, List.length_set]
            · intro hge2 seg2 hseg2
              dsimp only at hseg2
              rw [hs.2.1, dropWhile_eq_drop, List.getElem?_drop] at hseg2
              rw [show ((st.segments.set (s - e0.seqno)
                    { seg with acked := true }).takeWhile (fun e => e.acked)).length
                  + (s - (f + ((st.segments.set (s - e0.seqno)
                    { seg with acked := true }).takeWhile (fun e => e.acked)).length))
                  = s - e0.seqno from by omega] at hseg2
              rw [List.getElem?_set, if_pos rfl, if_pos hofflt] at hseg2
              injection hseg2 with h3
              rw [← h3]
      · rw [Inflight.mark_acked_below_front st now s e0 hh (by omega)] at htrue
        cases htrue

/-- Witness for C9's amended theorem: on the contiguous queue [3, 4] built
from a fresh Inflight, a stale ack of the absent seqno 10 returns false
and leaves the state unchanged. -/
theorem inflight_mark_acked_stale_safe_witness :
    ((((Inflight.new 0).insert 0 3 .Urel).insert 0 4 .Urel).segments.map
        (fun e => e.seqno)
      = List.range' 3
          (((Inflight.new 0).insert 0 3 .Urel).insert 0 4 .Urel).segments.length) ∧
    (((Inflight.new 0).insert 0 3 .Urel).insert 0 4 .Urel).mark_acked 7 10
      = (false, ((Inflight.new 0).insert 0 3 .Urel).insert 0 4 .Urel) :=
  ⟨by decide,
   (inflight_mark_acked_stale_safe
      (((Inflight.new 0).insert 0 3 .Urel).insert 0 4 .Urel) 7 0 10 3
      (by decide)
      (by
        intro e he
        rw [show (((Inflight.new 0).insert 0 3 .Urel).insert 0 4 .Urel).segments.head?
            = some ⟨3, false, 0, 0, .Urel, 0, 0⟩ from by decide] at he
        injection he with h2
        rw [← h2])).1
     (Or.inr (Or.inl (by decide)))⟩

theorem takeWhile_lt_eq_filter (l : List Nat) (k : Nat)
    (h : l.Pairwise (fun a b => a < b)) :
    l.takeWhile (fun s => decide (s < k)) = l.filter (fun s => decide (s < k)) := by
  induction l with
  | nil => rfl
  | cons a tl ih =>
    rcases List.pairwise_cons.mp h with ⟨ha, htl⟩
    rw [List.takeWhile_cons, List.filter_cons]
    by_cases hak : a < k
    · rw [if_pos (by simp [hak]), if_pos (by simp [hak])]
      rw [ih htl]
    · rw [if_neg (by simp [hak]), if_neg (by simp [hak])]
      rw [List.filter_eq_nil_iff.mpr]
      intro b hb
      have := ha b hb
      simp
      omega

/-- Claim C5 (counterexample): on the reachable state with segment seqnos
[5, 0] (insert 5 then insert 0 from a fresh Inflight — the code appends
any seqno whose offset misses), `mark_acked_lt 6` iterates the snapshot in
QUEUE order [5, 0] and empties the queue, while calling `mark_acked i`
individually in ASCENDING order [0, 5] — exactly the seqnos in the queue
below 6 — leaves the entry with seqno 0 unacked in the queue (the ack of 0
arrives while 0 is behind front 5 and is dropped).  The two observable
states differ, refuting the claim for arbitrary Inflight states. -/
theorem inflight_mark_acked_lt_counterexample :
    ((((Inflight.new 0).insert 0 5 .Urel).insert 0 0 .Urel).segments.map
        (fun e => e.seqno) = [5, 0]) ∧
    (((((Inflight.new 0).insert 0 5 .Urel).insert 0 0 .Urel).mark_acked_lt 0 6).segments.map
        (fun e => e.seqno) = []) ∧
    ((([0, 5].foldl (fun acc i => (acc.mark_acked 0 i).2)
        (((Inflight.new 0).insert 0 5 .Urel).insert 0 0 .Urel)).segments.map
        (fun e => e.seqno)) = [0]) := by
  refine ⟨by decide, by decide, by decide⟩

/-- Claim C5 (amended): cumulative ack equivalence on sorted queues.  For
every Inflight state whose segment seqnos are strictly ascending in queue
order (the documented segment-ring invariant, maintained by in-order
inserts) and every seqno k, `mark_acked_lt k` leaves the engine in exactly
the state reached by calling `mark_acked i` individually, in ascending
order, for every seqno i currently in the queue with i < k. -/
theorem inflight_mark_acked_lt_equiv (st : Inflight) (now k : Nat)
    (hsorted : (st.segments.map (fun e => e.seqno)).Pairwise (fun a b => a < b)) :
    st.mark_acked_lt now k
      = ((st.segments.map (fun e => e.seqno)).filter (fun i => decide (i < k))).foldl
          (fun acc i => (acc.mark_acked now i).2) st := by
  unfold Inflight.mark_acked_lt
  rw [takeWhile_lt_eq_filter _ k hsorted]

/-- Witness for C5's amended theorem on the sorted queue [3, 4]. -/
theorem inflight_mark_acked_lt_equiv_witness :
    (((((Inflight.new 0).insert 0 3 .Urel).insert 0 4 .Urel).segments.map
        (fun e => e.seqno)).Pairwise (fun a b => a < b)) ∧
    ((((Inflight.new 0).insert 0 3 .Urel).insert 0 4 .Urel).mark_acked_lt 9 4
      = (((((Inflight.new 0).insert 0 3 .Urel).insert 0 4 .Urel).segments.map
            (fun e => e.seqno)).filter (fun i => decide (i < 4))).foldl
          (fun acc i => (acc.mark_acked 9 i).2)
          (((Inflight.new 0).insert 0 3 .Urel).insert 0 4 .Urel)) :=
  ⟨by decide,
   inflight_mark_acked_lt_equiv (((Inflight.new 0).insert 0 3 .Urel).insert 0 4 .Urel)
     9 4 (by decide)⟩

/-! ### Helper lemmas for claim C4 -/

theorem elem_eq_false_of_not_mem {A : List Nat} {x : Nat} (h : x ∉ A) :
    A.elem x = false := by
  rw [List.elem_eq_mem]
  simp [h]

theorem elem_eq_true_of_mem {A : List Nat} {x : Nat} (h : x ∈ A) :
    A.elem x = true := by
  rw [List.elem_eq_mem]
  simp [h]

theorem mem_unackedL {s0 i x : Nat} {A : List Nat} :
    x ∈ unackedL s0 i A ↔ (s0 ≤ x ∧ x < s0 + i ∧ x ∉ A) := by
  unfold unackedL
  rw [List.mem_filter, List.mem_range']
  constructor
  · rintro ⟨⟨w, hw, hx⟩, hel⟩
    refine ⟨by omega, by omega, ?_⟩
    intro hmem
    rw [elem_eq_true_of_mem hmem] at hel
    cases hel
  · rintro ⟨h1, h2, h3⟩
    refine ⟨⟨x - s0, by omega, by omega⟩, ?_⟩
    rw [elem_eq_false_of_not_mem h3]
    rfl

theorem unackedL_pairwise (s0 i : Nat) (A : List Nat) :
    (unackedL s0 i A).Pairwise (fun a b => a < b) :=
  List.Pairwise.sublist (List.filter_sublist _) (List.pairwise_lt_range' s0 i 1)

theorem unackedL_head_le {s0 i f : Nat} {A rest : List Nat}
    (hU : unackedL s0 i A = f :: rest) :
    ∀ x ∈ unackedL s0 i A, f ≤ x := by
  have hp := unackedL_pairwise s0 i A
  rw [hU] at hp ⊢
  intro x hx
  rcases List.mem_cons.mp hx with h | h
  · omega
  · have := (List.pairwise_cons.mp hp).1 x h
    omega

theorem unackedL_cons (s0 i a : Nat) (A : List Nat) :
    unackedL s0 i (a :: A)
      = (unackedL s0 i A).filter (fun x => decide (x ≠ a)) := by
  unfold unackedL
  rw [List.filter_filter]
  apply List.filter_congr
  intro x hx
  by_cases hxa : x = a
  · subst hxa
    simp [List.elem_eq_mem, List.mem_cons]
  · by_cases hxA : x ∈ A
    · simp [List.elem_eq_mem, List.mem_cons, hxa, hxA]
    · simp [List.elem_eq_mem, List.mem_cons, hxa, hxA]

theorem unackedL_concat (s0 i : Nat) (A : List Nat) (h : (s0 + i) ∉ A) :
    unackedL s0 (i + 1) A = unackedL s0 i A ++ [s0 + i] := by
  unfold unackedL
  rw [List.range'_concat, List.filter_append]
  congr 1
  rw [one_mul]
  rw [List.filter_cons]
  rw [if_pos (by rw [elem_eq_false_of_not_mem h]; rfl)]
  rfl

theorem length_filter_ne_of_mem {l : List Nat} {a : Nat} (hnd : l.Nodup)
    (ha : a ∈ l) :
    (l.filter (fun x => decide (x ≠ a))).length = l.length - 1 := by
  induction l with
  | nil => cases ha
  | cons x xs ih =>
    rcases List.nodup_cons.mp hnd with ⟨hx, hxs⟩
    rw [List.filter_cons]
    rcases List.mem_cons.mp ha with h | h
    · subst h
      rw [if_neg (by simp)]
      rw [List.filter_eq_self.mpr]
      · simp
      · intro b hb
        simp only [ne_eq, decide_eq_true_eq]
        intro hcon
        exact hx (hcon ▸ hb)
    · have hxa : x ≠ a := by
        intro hcon
        exact hx (hcon ▸ h)
      rw [if_pos (by simp [hxa])]
      have hlen : 0 < xs.length := List.length_pos.mpr (by
        intro hcon
        rw [hcon] at h
        cases h)
      simp only [List.length_cons]
      rw [ih hxs h]
      omega

theorem unackedL_length (s0 i : Nat) (A : List Nat)
    (hA : ∀ a ∈ A, s0 ≤ a ∧ a < s0 + i) (hnd : A.Nodup) :
    (unackedL s0 i A).length = i - A.length := by
  induction A with
  | nil =>
    unfold unackedL
    rw [List.filter_eq_self.mpr (by intro b hb; rfl)]
    simp
  | cons a A ih =>
    rcases List.nodup_cons.mp hnd with ⟨haA, hndA⟩
    have hAsub : ∀ b ∈ A, s0 ≤ b ∧ b < s0 + i := by
      intro b hb
      exact hA b (List.mem_cons_of_mem a hb)
    have hamem : a ∈ unackedL s0 i A := by
      rcases hA a (List.mem_cons_self a A) with ⟨h1, h2⟩
      exact mem_unackedL.mpr ⟨h1, h2, haA⟩
    rw [unackedL_cons]
    have hndU : (unackedL s0 i A).Nodup :=
      List.Nodup.filter _ (List.nodup_range' s0 i)
    rw [length_filter_ne_of_mem hndU hamem]
    rw [ih hAsub hndA]
    have hlen : 0 < (unackedL s0 i A).length := List.length_pos.mpr (by
      intro hcon
      rw [hcon] at hamem
      cases hamem)
    rw [ih hAsub hndA] at hlen
    simp only [List.length_cons]
    omega

theorem canonSegs_eq_nil (s0 i : Nat) (A : List Nat)
    (hall : ∀ k, s0 ≤ k → k < s0 + i → k ∈ A) :
    canonSegs s0 i A = [] := by
  unfold canonSegs
  rw [List.dropWhile_eq_nil_iff]
  intro x hx
  rcases List.mem_map.mp hx with ⟨k, hk, rfl⟩
  rcases List.mem_range'.mp hk with ⟨w, hw, rfl⟩
  show A.elem _ = true
  exact elem_eq_true_of_mem (hall _ (by omega) (by omega))

theorem canonSegs_eq_map_of_front (f L : Nat) (A : List Nat)
    (hfA : f ∉ A) (hL : 0 < L) :
    canonSegs f L A = (List.range' f L).map (fun j => (j, A.elem j)) := by
  unfold canonSegs
  obtain ⟨L', rfl⟩ : ∃ L', L = L' + 1 := ⟨L - 1, by omega⟩
  rw [List.range'_succ, List.map_cons, List.dropWhile_cons]
  rw [if_neg (by
    show ¬((f, A.elem f).2 = true)
    rw [show (f, A.elem f).2 = A.elem f from rfl, elem_eq_false_of_not_mem hfA]
    simp)]

theorem canonSegs_shift (s0 i f : Nat) (A : List Nat)
    (hf0 : s0 ≤ f) (hfi : f ≤ s0 + i)
    (hpre : ∀ k, s0 ≤ k → k < f → k ∈ A) :
    canonSegs s0 i A = canonSegs f (s0 + i - f) A := by
  unfold canonSegs
  have hsplit : List.range' s0 i
      = List.range' s0 (f - s0) ++ List.range' f (s0 + i - f) := by
    have h2 := List.range'_append s0 (f - s0) (s0 + i - f) 1
    rw [show s0 + 1 * (f - s0) = f from by omega] at h2
    rw [show (s0 + i - f) + (f - s0) = i from by omega] at h2
    exact h2.symm
  have hnil : ((List.range' s0 (f - s0)).map
      (fun j => (j, A.elem j))).dropWhile (fun p => p.2) = [] := by
    rw [List.dropWhile_eq_nil_iff]
    intro x hx
    rcases List.mem_map.mp hx with ⟨k, hk, rfl⟩
    rcases List.mem_range'.mp hk with ⟨w, hw, rfl⟩
    show A.elem _ = true
    exact elem_eq_true_of_mem (hpre _ (by omega) (by omega))
  rw [hsplit, List.map_append, List.dropWhile_append, hnil]
  rw [if_pos (by rfl)]

theorem canonSegs_head_form (s0 i f : Nat) (A : List Nat) (rest : List Nat)
    (hU : unackedL s0 i A = f :: rest) :
    s0 ≤ f ∧ f < s0 + i ∧ f ∉ A ∧
    canonSegs s0 i A
      = (List.range' f (s0 + i - f)).map (fun j => (j, A.elem j)) := by
  have hfmem : f ∈ unackedL s0 i A := by
    rw [hU]
    exact List.mem_cons_self _ _
  rcases mem_unackedL.mp hfmem with ⟨h1, h2, h3⟩
  refine ⟨h1, h2, h3, ?_⟩
  rw [canonSegs_shift s0 i f A h1 (by omega) ?_]
  · exact canonSegs_eq_map_of_front f (s0 + i - f) A h3 (by omega)
  · intro k hk1 hk2
    by_contra hkA
    have hkmem : k ∈ unackedL s0 i A := mem_unackedL.mpr ⟨hk1, by omega, hkA⟩
    have := unackedL_head_le hU k hkmem
    omega

theorem unackedL_eq_nil_all (s0 i : Nat) (A : List Nat)
    (hU : unackedL s0 i A = []) :
    ∀ k, s0 ≤ k → k < s0 + i → k ∈ A := by
  intro k hk1 hk2
  by_contra hkA
  have : k ∈ unackedL s0 i A := mem_unackedL.mpr ⟨hk1, hk2, hkA⟩
  rw [hU] at this
  cases this

theorem projSA_cons_facts (st : Inflight) (f L : Nat) (A : List Nat)
    (hL : 0 < L)
    (hproj : st.projSA = (List.range' f L).map (fun j => (j, A.elem j))) :
    ∃ e0, st.segments.head? = some e0 ∧ e0.seqno = f ∧ e0.acked = A.elem f ∧
      st.segments.length = L := by
  have hlen : st.segments.length = L := by
    have h2 : st.projSA.length = L := by
      rw [hproj, List.length_map, List.length_range']
    rw [show st.projSA.length = st.segments.length from by
      unfold Inflight.projSA
      rw [List.length_map]] at h2
    exact h2
  cases hseg : st.segments with
  | nil => rw [hseg] at hlen; simp at hlen; omega
  | cons e0 tl =>
    rw [hseg] at hlen
    refine ⟨e0, List.head?_cons, ?_, ?_, hlen⟩
    all_goals
      have h3 : st.projSA.head? = some (e0.seqno, e0.acked) := by
        unfold Inflight.projSA
        rw [hseg, List.map_cons, List.head?_cons]
      rw [hproj] at h3
      obtain ⟨L', rfl⟩ : ∃ L', L = L' + 1 := ⟨L - 1, by omega⟩
      rw [List.range'_succ, List.map_cons, List.head?_cons] at h3
      injection h3 with h4
      rw [Prod.ext_iff] at h4
    · exact h4.1.symm
    · exact h4.2.symm

theorem projSA_get_facts (st : Inflight) (f L : Nat) (A : List Nat)
    (hproj : st.projSA = (List.range' f L).map (fun j => (j, A.elem j)))
    (off : Nat) (hoff : off < L) :
    ∃ seg, st.segments[off]? = some seg ∧ seg.seqno = f + off ∧
      seg.acked = A.elem (f + off) := by
  have h1 : st.projSA[off]? = some (f + off, A.elem (f + off)) := by
    rw [hproj, List.getElem?_map, List.getElem?_range' f 1 hoff]
    rw [one_mul]
    rfl
  unfold Inflight.projSA at h1
  rw [List.getElem?_map] at h1
  cases hseg : st.segments[off]? with
  | none => rw [hseg] at h1; cases h1
  | some seg =>
    rw [hseg] at h1
    injection h1 with h2
    rw [Prod.ext_iff] at h2
    exact ⟨seg, rfl, h2.1, h2.2⟩

theorem set_flag_eq_map (f L j : Nat) (A : List Nat)
    (hfj : f ≤ j) (hjL : j < f + L) (_hjA : j ∉ A) :
    ((List.range' f L).map (fun x => (x, A.elem x))).set (j - f) (j, true)
      = (List.range' f L).map (fun x => (x, (j :: A).elem x)) := by
  apply List.ext_getElem?
  intro n
  rw [List.getElem?_set, List.getElem?_map, List.getElem?_map]
  by_cases hn : j - f = n
  · rw [if_pos hn]
    rw [if_pos (by rw [List.length_map, List.length_range']; omega)]
    rw [List.getElem?_range' f 1 (by omega), one_mul]
    have hfn : f + n = j := by omega
    rw [hfn]
    show some (j, true) = some (j, List.elem j (j :: A))
    rw [elem_eq_true_of_mem (List.mem_cons_self j A)]
  · rw [if_neg hn]
    by_cases hnL : n < L
    · rw [List.getElem?_range' f 1 hnL, one_mul]
      have hne : f + n ≠ j := by omega
      show some (f + n, List.elem (f + n) A)
        = some (f + n, List.elem (f + n) (j :: A))
      rw [show List.elem (f + n) (j :: A) = List.elem (f + n) A from by
        rw [List.elem_eq_mem, List.elem_eq_mem]
        simp [List.mem_cons, hne]]
    · rw [List.getElem?_eq_none (l := List.range' f L)
        (by rw [List.length_range']; omega)]
      rfl

theorem map_proj_dropWhile (l : List InflightEntry) :
    (l.dropWhile (fun e => e.acked)).map (fun e => (e.seqno, e.acked))
      = (l.map (fun e => (e.seqno, e.acked))).dropWhile (fun p => p.2) := by
  induction l with
  | nil => rfl
  | cons x xs ih =>
    rw [List.map_cons, List.dropWhile_cons, List.dropWhile_cons]
    cases hx : x.acked with
    | true =>
      rw [if_pos rfl, if_pos rfl]
      exact ih
    | false =>
      rw [if_neg (by simp), if_neg (by simp)]
      rw [List.map_cons, hx]

theorem InvA_insert (s0 i : Nat) (A : List Nat) (st : Inflight)
    (hiv : InvA s0 i A st)
    (hA : ∀ a ∈ A, s0 ≤ a ∧ a < s0 + i) (now : Nat) (msg : Message) :
    InvA s0 (i + 1) A (st.insert now (s0 + i) msg) := by
  obtain ⟨hproj, hcount⟩ := hiv
  have hnotmem : (s0 + i) ∉ A := by
    intro hmem
    have := hA _ hmem
    omega
  have hconcat := unackedL_concat s0 i A hnotmem
  cases hU : unackedL s0 i A with
  | nil =>
    have hcnil : canonSegs s0 i A = [] :=
      canonSegs_eq_nil s0 i A (unackedL_eq_nil_all s0 i A hU)
    have hsegnil : st.segments = [] := by
      have h2 : st.projSA = [] := by rw [hproj, hcnil]
      unfold Inflight.projSA at h2
      exact List.map_eq_nil_iff.mp h2
    have hget : st.get_seqno (s0 + i) = none := by
      unfold Inflight.get_seqno
      rw [hsegnil]
      rfl
    have hins : (st.insert now (s0 + i) msg).segments
          = st.segments ++
            [⟨s0 + i, false, now, 0, msg, st.delivered, st.delivered_time⟩] ∧
        (st.insert now (s0 + i) msg).inflight_count
          = st.inflight_count + 1 := by
      unfold Inflight.insert
      rw [hget]
      exact ⟨rfl, rfl⟩
    have hU1 : unackedL s0 (i + 1) A = (s0 + i) :: [] := by
      rw [hconcat, hU]
      rfl
    obtain ⟨hg1, hg2, hg3, hcan1⟩ := canonSegs_head_form s0 (i + 1) (s0 + i) A [] hU1
    constructor
    · show (st.insert now (s0 + i) msg).segments.map (fun e => (e.seqno, e.acked)) = _
      rw [hins.1, hsegnil, hcan1]
      rw [show s0 + (i + 1) - (s0 + i) = 1 from by omega]
      rw [show List.range' (s0 + i) 1 = [s0 + i] from rfl]
      rw [List.nil_append, List.map_cons, List.map_cons, List.map_nil, List.map_nil]
      rw [elem_eq_false_of_not_mem hnotmem]
    · rw [hins.2, hcount, hU, hU1]
      rfl
  | cons f rest =>
    obtain ⟨hf1, hf2, hfA, hcanon⟩ := canonSegs_head_form s0 i f A rest hU
    rw [hcanon] at hproj
    obtain ⟨e0, hh, he0s, he0a, hlen⟩ :=
      projSA_cons_facts st f (s0 + i - f) A (by omega) hproj
    have hget : st.get_seqno (s0 + i) = none := by
      unfold Inflight.get_seqno
      rw [hh]
      dsimp only
      rw [if_pos (by omega)]
      exact List.getElem?_eq_none (by omega)
    have hins : (st.insert now (s0 + i) msg).segments
          = st.segments ++
            [⟨s0 + i, false, now, 0, msg, st.delivered, st.delivered_time⟩] ∧
        (st.insert now (s0 + i) msg).inflight_count
          = st.inflight_count + 1 := by
      unfold Inflight.insert
      rw [hget]
      exact ⟨rfl, rfl⟩
    have hU1 : unackedL s0 (i + 1) A = f :: (rest ++ [s0 + i]) := by
      rw [hconcat, hU]
      rfl
    obtain ⟨hg1, hg2, hg3, hcan1⟩ :=
      canonSegs_head_form s0 (i + 1) f A (rest ++ [s0 + i]) hU1
    constructor
    · show (st.insert now (s0 + i) msg).segments.map (fun e => (e.seqno, e.acked)) = _
      rw [hins.1, List.map_append, hcan1]
      rw [show (st.segments.map (fun e => (e.seqno, e.acked)))
          = st.projSA from rfl]
      rw [hproj]
      rw [show s0 + (i + 1) - f = (s0 + i - f) + 1 from by omega]
      rw [List.range'_concat, List.map_append]
      rw [show f + 1 * (s0 + i - f) = s0 + i from by omega]
      rw [List.map_cons, List.map_nil, List.map_cons, List.map_nil]
      rw [elem_eq_false_of_not_mem hnotmem]
    · rw [hins.2, hcount, hconcat, List.length_append]
      rfl

theorem InvA_ack (s0 i j now : Nat) (A : List Nat) (st : Inflight)
    (hiv : InvA s0 i A st)
    (hj1 : s0 ≤ j) (hj2 : j < s0 + i) (hjA : j ∉ A) :
    InvA s0 i (j :: A) (st.mark_acked now j).2 := by
  obtain ⟨hproj, hcount⟩ := hiv
  have hjU : j ∈ unackedL s0 i A := mem_unackedL.mpr ⟨hj1, hj2, hjA⟩
  cases hU : unackedL s0 i A with
  | nil => rw [hU] at hjU; cases hjU
  | cons f rest =>
    obtain ⟨hf1, hf2, hfA, hcanon⟩ := canonSegs_head_form s0 i f A rest hU
    have hfj : f ≤ j := unackedL_head_le hU j (hU ▸ hjU)
    rw [hcanon] at hproj
    obtain ⟨e0, hh, he0s, he0a, hlen⟩ :=
      projSA_cons_facts st f (s0 + i - f) A (by omega) hproj
    have hoff : j - f < s0 + i - f := by omega
    obtain ⟨seg, hseg, hsegs, hsega⟩ :=
      projSA_get_facts st f (s0 + i - f) A hproj (j - f) hoff
    have hsegacked : seg.acked = false := by
      rw [hsega]
      refine elem_eq_false_of_not_mem ?_
      rw [show f + (j - f) = j from by omega]
      exact hjA
    have hoff2 : j - e0.seqno = j - f := by rw [he0s]
    rw [Inflight.mark_acked_ge st now j e0 hh (by omega)]
    have hsuccess := Inflight.mark_acked_inner_success st now (j - e0.seqno) seg
      (by rw [hoff2]; exact hseg) hsegacked
    constructor
    · show ((st.mark_acked_inner now (j - e0.seqno)).2.segments.dropWhile
          (fun e => e.acked)).map (fun e => (e.seqno, e.acked)) = _
      rw [hsuccess.2.1]
      rw [map_proj_dropWhile]
      rw [List.map_set]
      rw [show ((st.segments.map (fun e => (e.seqno, e.acked))))
          = st.projSA from rfl]
      rw [hproj, hoff2]
      rw [show ((({ seg with acked := true } : InflightEntry).seqno,
          ({ seg with acked := true } : InflightEntry).acked))
          = (seg.seqno, true) from rfl]
      rw [show seg.seqno = f + (j - f) from hsegs,
        show f + (j - f) = j from by omega]
      rw [set_flag_eq_map f (s0 + i - f) j A hfj (by omega) hjA]
      show canonSegs f (s0 + i - f) (j :: A) = canonSegs s0 i (j :: A)
      refine (canonSegs_shift s0 i f (j :: A) hf1 (by omega) ?_).symm
      intro k hk1 hk2
      by_cases hkA : k ∈ A
      · exact List.mem_cons_of_mem j hkA
      · exfalso
        have hkmem : k ∈ unackedL s0 i A := mem_unackedL.mpr ⟨hk1, by omega, hkA⟩
        have := unackedL_head_le hU k hkmem
        omega
    · show (st.mark_acked_inner now (j - e0.seqno)).2.inflight_count = _
      rw [hsuccess.2.2.1, hcount]
      rw [unackedL_cons]
      have hndU : (unackedL s0 i A).Nodup :=
        List.Nodup.filter _ (List.nodup_range' s0 i)
      rw [length_filter_ne_of_mem hndU hjU]

theorem mem_ackAccum (ops : List AOp) : ∀ (A : List Nat) (x : Nat),
    x ∈ ackAccum ops A ↔ x ∈ ackList ops ∨ x ∈ A := by
  induction ops with
  | nil =>
    intro A x
    rw [show ackAccum [] A = A from rfl, show ackList [] = [] from rfl]
    simp
  | cons op rest ih =>
    intro A x
    cases op with
    | ins a b c =>
      rw [show ackAccum (.ins a b c :: rest) A = ackAccum rest A from rfl,
        show ackList (.ins a b c :: rest) = ackList rest from rfl]
      exact ih A x
    | ack a j =>
      rw [show ackAccum (.ack a j :: rest) A = ackAccum rest (j :: A) from rfl,
        show ackList (.ack a j :: rest) = j :: ackList rest from rfl]
      rw [ih (j :: A) x]
      simp only [List.mem_cons]
      tauto

theorem unackedL_congr (s0 i : Nat) (A B : List Nat)
    (h : ∀ x, x ∈ A ↔ x ∈ B) : unackedL s0 i A = unackedL s0 i B := by
  unfold unackedL
  apply List.filter_congr
  intro x hx
  rw [List.elem_eq_mem, List.elem_eq_mem]
  by_cases hxA : x ∈ A
  · simp [hxA, (h x).mp hxA]
  · have hxB : x ∉ B := fun hB => hxA ((h x).mpr hB)
    simp [hxA, hxB]

theorem InvA_run (s0 : Nat) (ops : List AOp) :
    ∀ (i : Nat) (A : List Nat) (st : Inflight),
      WfAOps s0 i A ops = true → InvA s0 i A st →
      (∀ a ∈ A, s0 ≤ a ∧ a < s0 + i) → A.Nodup →
      InvA s0 (i + insCount ops) (ackAccum ops A) (runAOps st ops) ∧
      (∀ a ∈ ackAccum ops A, s0 ≤ a ∧ a < s0 + (i + insCount ops)) ∧
      (ackAccum ops A).Nodup ∧
      (ackAccum ops A).length = A.length + (ackList ops).length := by
  induction ops with
  | nil =>
    intro i A st hwf hiv hA hnd
    rw [show insCount [] = 0 from rfl, Nat.add_zero]
    rw [show ackAccum [] A = A from rfl, show ackList [] = [] from rfl]
    exact ⟨hiv, hA, hnd, by simp⟩
  | cons op rest ih =>
    intro i A st hwf hiv hA hnd
    cases op with
    | ins tnow s m =>
      rw [WfAOps, Bool.and_eq_true] at hwf
      have hseq : s = s0 + i := beq_iff_eq.mp hwf.1
      subst hseq
      have hstep := InvA_insert s0 i A st hiv hA tnow m
      have hA' : ∀ a ∈ A, s0 ≤ a ∧ a < s0 + (i + 1) := by
        intro a ha
        have h2 := hA a ha
        exact ⟨h2.1, by omega⟩
      have hres := ih (i + 1) A (st.insert tnow (s0 + i) m) hwf.2 hstep hA' hnd
      rw [show insCount (AOp.ins tnow (s0 + i) m :: rest)
          = insCount rest + 1 from rfl]
      rw [show ackAccum (AOp.ins tnow (s0 + i) m :: rest) A
          = ackAccum rest A from rfl]
      rw [show ackList (AOp.ins tnow (s0 + i) m :: rest)
          = ackList rest from rfl]
      rw [show runAOps st (AOp.ins tnow (s0 + i) m :: rest)
          = runAOps (st.insert tnow (s0 + i) m) rest from rfl]
      rw [show i + (insCount rest + 1) = (i + 1) + insCount rest from by omega]
      exact hres
    | ack tnow j =>
      rw [WfAOps] at hwf
      simp only [Bool.and_eq_true] at hwf
      obtain ⟨⟨⟨h1, h2⟩, h3⟩, h4⟩ := hwf
      have hj1 : s0 ≤ j := of_decide_eq_true h1
      have hj2 : j < s0 + i := of_decide_eq_true h2
      have hjA : j ∉ A := by
        intro hmem
        rw [elem_eq_true_of_mem hmem] at h3
        cases h3
      have hstep := InvA_ack s0 i j tnow A st hiv hj1 hj2 hjA
      have hA' : ∀ a ∈ j :: A, s0 ≤ a ∧ a < s0 + i := by
        intro a ha
        rcases List.mem_cons.mp ha with h | h
        · subst h; exact ⟨hj1, hj2⟩
        · exact hA a h
      have hnd' : (j :: A).Nodup := List.nodup_cons.mpr ⟨hjA, hnd⟩
      have hres := ih i (j :: A) (st.mark_acked tnow j).2 h4 hstep hA' hnd'
      rw [show insCount (AOp.ack tnow j :: rest) = insCount rest from rfl]
      rw [show ackAccum (AOp.ack tnow j :: rest) A
          = ackAccum rest (j :: A) from rfl]
      rw [show ackList (AOp.ack tnow j :: rest) = j :: ackList rest from rfl]
      rw [show runAOps st (AOp.ack tnow j :: rest)
          = runAOps (st.mark_acked tnow j).2 rest from rfl]
      refine ⟨hres.1, hres.2.1, hres.2.2.1, ?_⟩
      rw [hres.2.2.2]
      simp only [List.length_cons]
      omega

/-- Claim C4: inflight ack monotonicity.  Starting from a fresh Inflight,
for any admissible interleaving of contiguous ascending inserts from `s0`
(the set S of `insCount ops` seqnos) with acks of a subset A of
already-inserted, not previously acked seqnos (`ackList ops`), the final
`inflight_count` equals |S| - |A|, and the front seqno of the segment
queue is the minimum of S \ A — the queue being empty exactly when A = S
(both sides stated via `head?` of the ascending list of unacked seqnos). -/
theorem inflight_ack_monotonicity (s0 : Nat) (ops : List AOp)
    (h : WfAOps s0 0 [] ops = true) :
    (runAOps (Inflight.new 0) ops).inflight_count
        = insCount ops - (ackList ops).length ∧
    ((runAOps (Inflight.new 0) ops).segments.map (fun e => e.seqno)).head?
        = (unackedL s0 (insCount ops) (ackList ops)).head? := by
  have hbase : InvA s0 0 [] (Inflight.new 0) := ⟨rfl, rfl⟩
  have hres := InvA_run s0 ops 0 [] (Inflight.new 0) h hbase
    (by intro a ha; cases ha) List.nodup_nil
  rw [Nat.zero_add] at hres
  obtain ⟨⟨hproj, hcountv⟩, hAfin, hndfin, hlenfin⟩ := hres
  have hmemiff : ∀ x, x ∈ ackAccum ops [] ↔ x ∈ ackList ops := by
    intro x
    rw [mem_ackAccum ops [] x]
    simp
  have hUcongr : unackedL s0 (insCount ops) (ackAccum ops [])
      = unackedL s0 (insCount ops) (ackList ops) :=
    unackedL_congr _ _ _ _ hmemiff
  constructor
  · rw [hcountv,
      unackedL_length s0 (insCount ops) (ackAccum ops []) hAfin hndfin,
      hlenfin]
    simp
  · have hmapfst : (runAOps (Inflight.new 0) ops).segments.map (fun e => e.seqno)
        = ((runAOps (Inflight.new 0) ops).projSA).map Prod.fst := by
      unfold Inflight.projSA
      rw [List.map_map]
      rfl
    rw [hmapfst, hproj, ← hUcongr]
    cases hU : unackedL s0 (insCount ops) (ackAccum ops []) with
    | nil =>
      rw [canonSegs_eq_nil s0 (insCount ops) (ackAccum ops [])
        (unackedL_eq_nil_all _ _ _ hU)]
      rfl
    | cons f rest =>
      obtain ⟨hg1, hg2, hg3, hcan⟩ :=
        canonSegs_head_form s0 (insCount ops) f (ackAccum ops []) rest hU
      rw [hcan]
      obtain ⟨L', hL'⟩ : ∃ L', s0 + insCount ops - f = L' + 1 :=
        ⟨s0 + insCount ops - f - 1, by omega⟩
      rw [hL', List.range'_succ, List.map_cons, List.map_cons]
      rw [List.head?_cons, List.head?_cons]

/-- Witness for C4 on a concrete interleaving: insert 10, 11, ack 10,
insert 12, ack 12; the final count is 3 - 2 = 1 and the front seqno is 11,
the least unacked seqno. -/
theorem inflight_ack_monotonicity_witness :
    WfAOps 10 0 []
      [.ins 0 10 .Urel, .ins 1 11 .Urel, .ack 2 10, .ins 3 12 .Urel, .ack 4 12]
      = true ∧
    ((runAOps (Inflight.new 0)
        [.ins 0 10 .Urel, .ins 1 11 .Urel, .ack 2 10, .ins 3 12 .Urel, .ack 4 12]).inflight_count
      = insCount [.ins 0 10 .Urel, .ins 1 11 .Urel, .ack 2 10, .ins 3 12 .Urel, .ack 4 12]
        - (ackList [.ins 0 10 .Urel, .ins 1 11 .Urel, .ack 2 10, .ins 3 12 .Urel, .ack 4 12]).length ∧
     ((runAOps (Inflight.new 0)
        [.ins 0 10 .Urel, .ins 1 11 .Urel, .ack 2 10, .ins 3 12 .Urel, .ack 4 12]).segments.map
          (fun e => e.seqno)).head?
      = (unackedL 10
          (insCount [.ins 0 10 .Urel, .ins 1 11 .Urel, .ack 2 10, .ins 3 12 .Urel, .ack 4 12])
          (ackList [.ins 0 10 .Urel, .ins 1 11 .Urel, .ack 2 10, .ins 3 12 .Urel, .ack 4 12])).head?) :=
  ⟨by decide,
   inflight_ack_monotonicity 10
     [.ins 0 10 .Urel, .ins 1 11 .Urel, .ack 2 10, .ins 3 12 .Urel, .ack 4 12]
     (by decide)⟩
